import Mathlib

/-!
Verification of the Gemini-clone repository's core components against its
natural-language specification.

The development shallowly embeds the TypeScript sources:

* `Chunker` — `src/infrastructure/tools/utils/semanticChunker.ts`
  (`splitIntoSentences`, `semanticChunk`).  Strings are modelled as
  `List Char`; the numeric options as `ℤ` (JS numbers at the sizes used).
* `Conv` — `src/core/domain/entities/Conversation.ts` (the variant with
  `addMessageWithToolCalls`, lines 157-193).  The mutating methods are
  embedded as state transformers returning the thrown-or-ok outcome
  together with the (possibly updated) object, mirroring the statement
  order of the source: the `throw` happens before any `push`.
* `KB` — `LocalVectorKnowledgeBase` (the OpenAI-embedding implementation):
  `cosineSimilarity` and `search`.  JS IEEE doubles are modelled as exact
  reals; the one observable non-real behaviour, `0/0 = NaN`, is modelled
  by an `Option ℝ` result where `none` stands for NaN.
* `Agent` — `GenkitAgent.runAgentLoop` / `GenkitAgent.generateStream`
  together with `executeToolManually` from the genkit `ToolRegistry`.
  The Completion Port is an oracle function from the transcript to the
  provider response; `await`-able adapter calls that may throw are
  functions into `Except`.  The unbounded `while (true)` of
  `runAgentLoop` is embedded with explicit fuel: `outOfFuel n` means the
  loop is still running after `n` iterations (one Completion Port call
  per iteration).
-/

/-! ## Chunker: character utilities -/

namespace Chunker

/-- Whitespace test used by the model for the JS `\s` class and
`String.trim` (ASCII subset: space, tab, newline, carriage return,
vertical tab, form feed; the sources only ever meet these). -/
def isWsChar (c : Char) : Bool :=
  c = ' ' || c = '\t' || c = '\n' || c = '\r' || c = Char.ofNat 11 || c = Char.ofNat 12

/-- Sentence terminators of the chunker's split regex `[.!?]`. -/
def isTermChar (c : Char) : Bool :=
  c = '.' || c = '!' || c = '?'

/-- JS `String.prototype.trim`: drop whitespace from both ends. -/
def trimC (l : List Char) : List Char :=
  ((l.dropWhile isWsChar).reverse.dropWhile isWsChar).reverse

/-- Does the accumulated (reversed) piece end, in source order, with a
sentence terminator?  This is the `(?<=[.!?])` lookbehind of the split
regex: the character immediately before the current position. -/
def headIsTerm : List Char → Bool
  | [] => false
  | c :: _ => isTermChar c

/-- Model of `text.split(/(?<=[.!?])\s+/)`.  `piece` is the current piece
accumulated in reverse; `skipping` is true while consuming the `\s+`
separator run that follows a terminator.  A separator at the end of the
input produces a trailing empty piece, as JS `split` does. -/
def splitPiecesAux : List Char → List Char → Bool → List (List Char)
  | [], piece, _ => [piece.reverse]
  | c :: rest, piece, skipping =>
    if skipping && isWsChar c then
      splitPiecesAux rest piece true
    else if isWsChar c && headIsTerm piece then
      piece.reverse :: splitPiecesAux rest [] true
    else
      splitPiecesAux rest (c :: piece) false

/-- `splitIntoSentences` from `semanticChunker.ts`:
split on terminator-then-whitespace, trim each piece, keep non-empty. -/
def splitIntoSentences (t : List Char) : List (List Char) :=
  ((splitPiecesAux t [] false).map trimC).filter (fun s => 0 < s.length)

/-- `currentChunk.join(' ')`. -/
def joinSp : List (List Char) → List Char
  | [] => []
  | [s] => s
  | s :: rest => s ++ ' ' :: joinSp rest

/-- Accumulated overlap length as the source counts it:
`overlapLength += currentChunk[j].length + 1` per carried sentence. -/
def wlen (l : List (List Char)) : ℤ :=
  (l.map (fun s => (s.length : ℤ) + 1)).sum

/-- The overlap-collection loop, walking the chunk from its end (input
here is the reversed chunk): take sentences while the accumulated length
is still strictly below `overlapSize`. -/
def ovAux (ovS : ℤ) : ℤ → List (List Char) → List (List Char)
  | _, [] => []
  | ol, s :: rest => if ol < ovS then s :: ovAux ovS (ol + s.length + 1) rest else []

/-- `lastOverlapSentences` computed at an emit: the suffix of the current
chunk collected by `ovAux` (lines 109-116 of `semanticChunker.ts`). -/
def ovSuffix (ovS : ℤ) (cc : List (List Char)) : List (List Char) :=
  (ovAux ovS 0 cc.reverse).reverse

/-- The sentence-accumulation loop of `semanticChunk` (lines 95-126).
State: remaining sentences, `currentChunk` (`cc`), `lastOverlapSentences`
(`lastOv`).  Returns the chunks emitted inside the loop (as sentence
lists) and the final `currentChunk`.  `currentSize` of the source is the
derived quantity `(joinSp cc).length` and is not tracked separately. -/
def chunkAux (maxS ovS : ℤ) : List (List Char) → List (List Char) → List (List Char) →
    List (List (List Char)) × List (List Char)
  | [], cc, _ => ([], cc)
  | s :: rest, cc, lastOv =>
    let sep : ℤ := if cc = [] then 0 else 1
    if ((joinSp cc).length : ℤ) + sep + (s.length : ℤ) > maxS ∧ cc ≠ [] then
      let newOv := if 0 < ovS then ovSuffix ovS cc else lastOv
      let r := chunkAux maxS ovS rest (newOv ++ [s]) newOv
      (cc :: r.1, r.2)
    else
      chunkAux maxS ovS rest (cc ++ [s]) lastOv

/-- Final-flush part of `semanticChunk` (lines 128-135): join the emitted
chunks, append the final `currentChunk` unless it is empty or its text
equals the previously emitted chunk's text. -/
def chunkCore (maxS ovS : ℤ) (sents : List (List Char)) : List (List Char) :=
  let r := chunkAux maxS ovS sents [] []
  let out := r.1.map joinSp
  let ft := joinSp r.2
  if r.2 ≠ [] then
    (if out ≠ [] ∧ out.getLast? = some ft then out else out ++ [ft])
  else out

/-- `semanticChunk(text, {maxChunkSize, overlapSize, preserveHeaders})`.
`preserveHeaders` is omitted: the source computes a header map but the
block that would use it (lines 137-141) is an explicit no-op, so the
option has no effect on the returned chunks. -/
def semanticChunk (text : List Char) (maxS ovS : ℤ) : List (List Char) :=
  let t := trimC text
  if t = [] then []
  else if (t.length : ℤ) ≤ maxS then [t]
  else
    let sents := splitIntoSentences t
    if sents = [] then [t] else chunkCore maxS ovS sents

/-- The sentence-level chunk sequence (loop-emitted chunks plus the final
`currentChunk`), before joining and final dedupe; used to state the
overlap-carrying discipline. -/
def chunkSkeleton (text : List Char) (maxS ovS : ℤ) : List (List (List Char)) :=
  let r := chunkAux maxS ovS (splitIntoSentences (trimC text)) [] []
  r.1 ++ [r.2]

end Chunker

/-! ## Conversation aggregate -/

namespace Conv

/-- `MessageRole` from `Message.ts`: `'user' | 'model' | 'tool'`. -/
inductive MessageRole where
  | user : MessageRole
  | model : MessageRole
  | tool : MessageRole
deriving DecidableEq, Repr

/-- `ToolCall` value object: `{id, name, args}`; `args` is a string-keyed
record, modelled as an association list of opaque values. -/
structure ToolCall where
  id : List Char
  name : List Char
  args : List (List Char × List Char)
deriving DecidableEq, Repr

/-- A stored message: `{role, content, toolCalls?}`. -/
structure Msg where
  role : MessageRole
  content : List Char
  toolCalls : Option (List ToolCall)
deriving DecidableEq, Repr

/-- The `Conversation` aggregate: an id and a private message list. -/
structure Conversation where
  id : List Char
  messages : List Msg
deriving DecidableEq, Repr

/-- `addMessage(role, content)`: validates that the trimmed content is
non-empty (throwing before any mutation), else appends the trimmed
message.  Embedded as a state transformer: first component is the
throw/ok outcome, second the object state after the call. -/
def addMessage (conv : Conversation) (role : MessageRole) (content : List Char) :
    Except String Unit × Conversation :=
  let trimmedContent := Chunker.trimC content
  if trimmedContent.length = 0 then
    (Except.error "Message content cannot be empty", conv)
  else
    (Except.ok (), { conv with messages := conv.messages ++ [⟨role, trimmedContent, none⟩] })

/-- `addMessageWithToolCalls(role, content, toolCalls)`: valid when the
trimmed content or the tool-call list is non-empty. -/
def addMessageWithToolCalls (conv : Conversation) (role : MessageRole)
    (content : List Char) (toolCalls : List ToolCall) :
    Except String Unit × Conversation :=
  let trimmedContent := Chunker.trimC content
  if trimmedContent.length = 0 ∧ toolCalls.length = 0 then
    (Except.error "Message must have content or tool calls", conv)
  else
    (Except.ok (),
      { conv with messages := conv.messages ++ [⟨role, trimmedContent, some toolCalls⟩] })

/-- `getHistory()` returns a copy of the message list; in the pure model
the copy is the list value itself. -/
def getHistory (conv : Conversation) : List Msg :=
  conv.messages

end Conv

/-! ## Agent loop -/

namespace Agent

/-- Tool-call argument record `{ query: string }`. -/
structure ToolInput where
  query : String
deriving DecidableEq, Repr

/-- A tool request extracted from the provider response:
`{toolName, input, ref}`. -/
structure ToolRequest where
  toolName : String
  input : ToolInput
  ref : String
deriving DecidableEq, Repr

/-- The `result` payload folded into a tool response: either an array
(web results / knowledge-base texts), a plain string (the fallback
messages), or JS `undefined` (when `res.results` is absent and used
without the `?? []` guard). -/
inductive RVal where
  | list : List String → RVal
  | str : String → RVal
  | undef : RVal
deriving DecidableEq, Repr

/-- Web-search port response; only the `results` field is consumed by the
agent loop (`answer`/`query` are never read there).  `results` is
`Option`al because `executeToolManually` defends with `?? []`. -/
structure WebResp where
  results : Option (List String)
deriving DecidableEq, Repr

/-- The adapters injected into the agent (`ToolDependencies`): each port
is optionally present, and a call may throw (modelled as `Except`). -/
structure ToolDependencies where
  webSearch : Option (String → Except String WebResp)
  knowledgeBase : Option (String → Except String (List String))

/-- One content part of a transcript message. -/
inductive GPart where
  | text : String → GPart
  | toolRequest : String → ToolInput → String → GPart
  | toolResponse : String → RVal → String → GPart
deriving DecidableEq, Repr

/-- A transcript message in the provider's format. -/
structure GMessage where
  role : String
  content : List GPart
deriving DecidableEq, Repr

/-- The model-turn message recording a tool request (pushed first). -/
def toolRequestMsg (req : ToolRequest) : GMessage :=
  ⟨"model", [GPart.toolRequest req.toolName req.input req.ref]⟩

/-- The tool-turn message recording the result, keyed by the same ref. -/
def toolResponseMsg (req : ToolRequest) (rv : RVal) : GMessage :=
  ⟨"tool", [GPart.toolResponse req.toolName rv req.ref]⟩

/-- A buffered provider response: the text, and the parse of
`response.output?.toolRequests` — `Except.error` models the property
access throwing (caught by the loop), `Option.none` a null/absent
output. -/
structure GenResponse where
  text : String
  output : Except Unit (Option (List ToolRequest))

/-- `executeToolManually(toolName, input, deps)` from the genkit
`ToolRegistry`: dispatch to a present adapter (no try/catch — an adapter
error propagates), defaulting to the `'No information found.'` record. -/
def executeToolManually (toolName : String) (input : ToolInput)
    (deps : ToolDependencies) : Except String RVal :=
  match deps.webSearch, toolName == "web_search" with
  | some ws, true => (ws input.query).map (fun r => RVal.list (r.results.getD []))
  | _, _ =>
    match deps.knowledgeBase, toolName == "knowledge_base" with
    | some kb, true => (kb input.query).map RVal.list
    | _, _ => Except.ok (RVal.str "No information found.")

/-- Result of running the buffered loop under a given amount of fuel:
`returned text calls` — the loop hit a no-tool-request response;
`threw e calls` — an adapter exception propagated out of the loop;
`outOfFuel calls` — the `while (true)` loop is still running after
`calls` Completion Port invocations (the source has no turn bound). -/
inductive LoopResult where
  | returned : String → Nat → LoopResult
  | threw : String → Nat → LoopResult
  | outOfFuel : Nat → LoopResult
deriving DecidableEq, Repr

/-- Number of Completion Port calls recorded in a loop result. -/
def LoopResult.calls : LoopResult → Nat
  | .returned _ n => n
  | .threw _ n => n
  | .outOfFuel n => n

/-- Add the current iteration's Completion Port call to a tail result. -/
def bumpCalls : LoopResult → LoopResult
  | .returned t n => .returned t (n + 1)
  | .threw e n => .threw e (n + 1)
  | .outOfFuel n => .outOfFuel (n + 1)

/-- `GenkitAgent.runAgentLoop` (lines 224-294): an unbounded
`while (true)` that calls the Completion Port, returns the text when no
tool request is present (also when parsing the output threw), and
otherwise appends the request and the manually executed result and
iterates.  The fuel argument only bounds how many iterations are
observed. -/
def runAgentLoop (oracle : List GMessage → GenResponse) (deps : ToolDependencies) :
    Nat → List GMessage → LoopResult
  | 0, _ => .outOfFuel 0
  | fuel + 1, msgs =>
    let resp := oracle msgs
    let toolRequests : Option (List ToolRequest) :=
      match resp.output with
      | .error _ => none
      | .ok v => v
    match toolRequests with
    | none => .returned resp.text 1
    | some [] => .returned resp.text 1
    | some (req :: _) =>
      let msgs1 := msgs ++ [toolRequestMsg req]
      match executeToolManually req.toolName req.input deps with
      | .error e => .threw e 1
      | .ok rv => bumpCalls (runAgentLoop oracle deps fuel (msgs1 ++ [toolResponseMsg req rv]))

/-- A streaming provider response: the streamed text fragments, and the
awaited final response's tool requests (`Except.error` models the
`await responseStream.response` / parse throwing, which the source
catches and turns into a plain return). -/
structure StreamResponse where
  chunks : List String
  response : Except Unit (Option (List ToolRequest))

/-- Observable outcome of `generateStream`: the fragments yielded, the
number of Completion Port calls, and the final transcript held by the
loop. -/
structure StreamResult where
  yielded : List String
  calls : Nat
  transcript : List GMessage
deriving Repr

/-- The inline tool dispatch of `generateStream` (lines 374-390): the
whole dispatch is inside `try/catch`, unknown or absent tools fold
`"Tool unavailable"`, a thrown adapter error folds `"Error: <message>"`. -/
def streamExecuteTool (req : ToolRequest) (deps : ToolDependencies) : RVal :=
  match deps.webSearch, req.toolName == "web_search" with
  | some ws, true =>
    match ws req.input.query with
    | .ok r =>
      match r.results with
      | some l => RVal.list l
      | none => RVal.undef
    | .error e => RVal.str ("Error: " ++ e)
  | _, _ =>
    match deps.knowledgeBase, req.toolName == "knowledge_base" with
    | some kb, true =>
      match kb req.input.query with
      | .ok r => RVal.list r
      | .error e => RVal.str ("Error: " ++ e)
    | _, _ => RVal.str "Tool unavailable"

/-- The `while (turn < maxTurns)` body of `generateStream` (lines
314-396), with fuel counting the remaining turns.  Each iteration makes
one Completion Port call, yields the non-empty text fragments, returns
on a parse failure or on no tool request, and otherwise folds the
request and the dispatched result into the transcript and iterates. -/
def generateStreamLoop (oracle : List GMessage → StreamResponse)
    (deps : ToolDependencies) :
    Nat → List GMessage → List String → StreamResult
  | 0, msgs, acc => ⟨acc, 0, msgs⟩
  | fuel + 1, msgs, acc =>
    let resp := oracle msgs
    let acc1 := acc ++ resp.chunks.filter (fun s => s ≠ "")
    match resp.response with
    | .error _ => ⟨acc1, 1, msgs⟩
    | .ok none => ⟨acc1, 1, msgs⟩
    | .ok (some []) => ⟨acc1, 1, msgs⟩
    | .ok (some (req :: _)) =>
      let rv := streamExecuteTool req deps
      let msgs2 := msgs ++ [toolRequestMsg req] ++ [toolResponseMsg req rv]
      let r := generateStreamLoop oracle deps fuel msgs2 acc1
      ⟨r.yielded, r.calls + 1, r.transcript⟩

/-- `const maxTurns = 5` (line 311). -/
def maxTurns : Nat := 5

/-- `GenkitAgent.generateStream` (lines 299-397) after message
preparation: run the turn loop with the 5-turn budget. -/
def generateStream (oracle : List GMessage → StreamResponse)
    (deps : ToolDependencies) (msgs : List GMessage) : StreamResult :=
  generateStreamLoop oracle deps maxTurns msgs []

/-- A Completion Port that answers every transcript with the same
`web_search` tool request: the always-tool mock of the spec's bounded
loop property. -/
def alwaysToolOracle : List GMessage → GenResponse :=
  fun _ => ⟨"", Except.ok (some [⟨"web_search", ⟨"q"⟩, "r"⟩])⟩

/-- Dependencies whose web-search adapter always succeeds with an empty
result list. -/
def okWebDeps : ToolDependencies :=
  ⟨some (fun _ => Except.ok ⟨some []⟩), none⟩

/-- Dependencies whose web-search adapter always throws. -/
def throwingWebDeps : ToolDependencies :=
  ⟨some (fun _ => Except.error "network down"), none⟩

/-- A single buffered response carrying one `web_search` request. -/
def oneWebRequestOracle : List GMessage → GenResponse :=
  fun _ => ⟨"", Except.ok (some [⟨"web_search", ⟨"apple stock"⟩, "ref-123"⟩])⟩

/-- The knowledge-base request used in the empty-result scenario. -/
def kbReq : ToolRequest := ⟨"knowledge_base", ⟨"rag"⟩, "ref-456"⟩

/-- Dependencies with only a knowledge base, which returns no chunks. -/
def emptyKbDeps : ToolDependencies :=
  ⟨none, some (fun _ => Except.ok [])⟩

/-- A streaming Completion Port that requests the knowledge base on the
first call (empty transcript) and ends the conversation on the second. -/
def kbOnceStreamOracle : List GMessage → StreamResponse :=
  fun msgs =>
    if msgs.length = 0 then ⟨[], Except.ok (some [kbReq])⟩
    else ⟨["done"], Except.ok none⟩

end Agent

/-! ## LocalVectorKnowledgeBase -/

namespace KB

/-- A stored chunk: `{id, text, vector?}`; the vector is absent when the
embedding call failed. -/
structure DocumentChunk where
  id : ℕ
  text : String
  vector : Option (List ℝ)

/-- `vecA.reduce((sum, a, i) => sum + a * vecB[i], 0)`.  The claims only
concern equal-length vectors, for which the pairwise `zipWith` sum is the
source's value (for longer `vecA` the JS code reads past `vecB` and the
whole result is NaN). -/
def dotProduct (a b : List ℝ) : ℝ :=
  (List.zipWith (fun x y => x * y) a b).sum

/-- `vec.reduce((sum, a) => sum + a * a, 0)`. -/
def sumSq (a : List ℝ) : ℝ :=
  (a.map (fun x => x * x)).sum

/-- `Math.sqrt(...)` of the summed squares. -/
noncomputable def magnitude (a : List ℝ) : ℝ :=
  Real.sqrt (sumSq a)

/-- `cosineSimilarity(vecA, vecB)` (lines 545-550): the quotient
`dot / (|a| * |b|)`.  JS IEEE division `0 / 0` yields NaN; the model
returns `none` for that case (a zero denominator) and `some` of the
exact real quotient otherwise. -/
noncomputable def cosineSimilarity (a b : List ℝ) : Option ℝ :=
  if magnitude a * magnitude b = 0 then none
  else some (dotProduct a b / (magnitude a * magnitude b))

/-- The comparator of the source's sort, `(a, b) => b.score - a.score`,
as the engine consumes it.  ECMA-262 defines the sort order only for a
consistent comparator; a NaN score (a zero-magnitude vector) makes the
comparator return NaN, which engines treat like `0`: only a strictly
positive result moves `b` before `a`.  `sortLe p q` is "`p` may stay
before `q`" — false exactly when the comparator applied to `(p, q)`
returns a strictly positive number. -/
noncomputable def sortLe (p q : String × Option ℝ) : Bool :=
  match q.2, p.2 with
  | some b, some a => !(decide (0 < b - a))
  | _, _ => true

/-- The merge step of the stable merge sort modelling
`Array.prototype.sort`: take from the left run while its head may stay
before the right head. -/
noncomputable def mergeScored :
    List (String × Option ℝ) → List (String × Option ℝ) → List (String × Option ℝ)
  | [], ys => ys
  | x :: xs, [] => x :: xs
  | x :: xs, y :: ys =>
    if sortLe x y then x :: mergeScored xs (y :: ys)
    else y :: mergeScored (x :: xs) ys
termination_by xs ys => xs.length + ys.length

/-- Score comparison used to state the descending-order guarantee:
whenever both entries carry a real score, the later one is not larger. -/
def scoreGe (p q : String × Option ℝ) : Prop :=
  ∀ a b, p.2 = some a → q.2 = some b → b ≤ a

/-- `this.chunks.filter(c => c.vector).map(c => ({text, score}))`:
score every vectorized chunk, skipping chunks without a vector. -/
noncomputable def scoredChunks (qv : List ℝ) (chunks : List DocumentChunk) :
    List (String × Option ℝ) :=
  chunks.filterMap (fun c => c.vector.map (fun v => (c.text, cosineSimilarity qv v)))

/-- `.sort((a, b) => b.score - a.score)`: a stable top-down merge sort
(the run-merging at the heart of the engines' TimSort), driven by the
source comparator through `sortLe`.  On stores whose scores are all real
the comparator is consistent and this is the unique stable descending
sort; with a NaN score the engine's order is implementation-defined and
this model fixes the no-reorder-on-NaN treatment throughout. -/
noncomputable def sortByScoreDesc : List (String × Option ℝ) → List (String × Option ℝ)
  | [] => []
  | [x] => [x]
  | x :: y :: rest =>
    mergeScored
      (sortByScoreDesc ((x :: y :: rest).take (((x :: y :: rest).length + 1) / 2)))
      (sortByScoreDesc ((x :: y :: rest).drop (((x :: y :: rest).length + 1) / 2)))
termination_by l => l.length
decreasing_by
· simp [List.length_take]
  omega
· simp [List.length_drop]
  omega

/-- The threshold filter `match.score > 0.3`; `NaN > 0.3` is false. -/
noncomputable def scoreAbove : Option ℝ → Bool
  | none => false
  | some x => decide ((3 : ℝ) / 10 < x)

/-- The ready-index result pipeline of `search` (lines 507-527): sort
scored chunks descending, keep scores strictly above `0.3`, take the top
3. -/
noncomputable def searchPipeline (qv : List ℝ) (chunks : List DocumentChunk) :
    List (String × Option ℝ) :=
  ((sortByScoreDesc (scoredChunks qv chunks)).filter (fun p => scoreAbove p.2)).take 3

/-- The chunk texts returned from a ready index. -/
noncomputable def searchTexts (qv : List ℝ) (chunks : List DocumentChunk) :
    List String :=
  (searchPipeline qv chunks).map Prod.fst

/-- `search(query)` (lines 469-540).  `isIndexed` is the readiness flag
observed on entry; `isIndexedAfterWait` the flag observed after the
single 500 ms pause (the model's two Booleans encode that exactly one
wait is taken, never a retry loop).  `embedResult` is the outcome of the
query-embedding call inside the `try`: a thrown error (caught by the
`catch`, which returns `[]`) or the extracted vector (`none` when
`extractEmbedding` yields null, also returning `[]`). -/
noncomputable def search (isIndexed isIndexedAfterWait : Bool)
    (embedResult : Except String (Option (List ℝ)))
    (chunks : List DocumentChunk) : List String :=
  match isIndexed, isIndexedAfterWait with
  | false, false => []
  | _, _ =>
    match embedResult with
    | .error _ => []
    | .ok none => []
    | .ok (some qv) => searchTexts qv chunks

end KB

/-! ## Theorems -/

/-! ### Conversation (C9, C10) -/

/-- C9: `addMessage(role, content)` raises a validation error exactly
when `content` trims to the empty string (for every role), whereas
`addMessageWithToolCalls(role, content, toolCalls)` succeeds when the
content is empty provided `toolCalls` is non-empty, and raises only when
the trimmed content is empty and `toolCalls` is empty. -/
theorem addMessage_validation (conv : Conv.Conversation) (role : Conv.MessageRole)
    (content : List Char) (toolCalls : List Conv.ToolCall) :
    ((Conv.addMessage conv role content).1
        = Except.error "Message content cannot be empty"
      ↔ Chunker.trimC content = [])
    ∧ (Chunker.trimC content ≠ [] →
        (Conv.addMessage conv role content).1 = Except.ok ())
    ∧ ((Conv.addMessageWithToolCalls conv role content toolCalls).1
        = Except.error "Message must have content or tool calls"
      ↔ Chunker.trimC content = [] ∧ toolCalls = [])
    ∧ (Chunker.trimC content ≠ [] ∨ toolCalls ≠ [] →
        (Conv.addMessageWithToolCalls conv role content toolCalls).1 = Except.ok ()) := by
  unfold Conv.addMessage Conv.addMessageWithToolCalls
  by_cases hc : (Chunker.trimC content).length = 0 <;>
    by_cases ht : toolCalls.length = 0 <;>
      simp_all [List.length_eq_zero]

/-- Witness for C9 at concrete inputs: whitespace-only content is
rejected by `addMessage`, while empty content with one tool call is
accepted by `addMessageWithToolCalls`. -/
theorem addMessage_validation_witness :
    ((Conv.addMessage ⟨"c1".toList, []⟩ Conv.MessageRole.user "   ".toList).1
      = Except.error "Message content cannot be empty")
    ∧ ((Conv.addMessageWithToolCalls ⟨"c1".toList, []⟩ Conv.MessageRole.user
        "".toList [⟨"id1".toList, "web_search".toList, []⟩]).1 = Except.ok ()) :=
  ⟨(addMessage_validation ⟨"c1".toList, []⟩ Conv.MessageRole.user "   ".toList
      [⟨"id1".toList, "web_search".toList, []⟩]).1.mpr (by decide),
   (addMessage_validation ⟨"c1".toList, []⟩ Conv.MessageRole.user "".toList
      [⟨"id1".toList, "web_search".toList, []⟩]).2.2.2 (Or.inr (by decide))⟩

/-- C10: both `addMessage` variants are atomic and append-only — if the
call raises, the conversation (history and id) is unchanged; if it
succeeds, exactly one message is appended at the end with its content
trimmed, and no existing message is edited, reordered or removed. -/
theorem conversation_atomic_append (conv : Conv.Conversation) (role : Conv.MessageRole)
    (content : List Char) (toolCalls : List Conv.ToolCall) :
    (∀ e, (Conv.addMessage conv role content).1 = Except.error e →
        (Conv.addMessage conv role content).2 = conv)
    ∧ ((Conv.addMessage conv role content).1 = Except.ok () →
        Conv.getHistory (Conv.addMessage conv role content).2
          = Conv.getHistory conv ++ [⟨role, Chunker.trimC content, none⟩]
        ∧ (Conv.addMessage conv role content).2.id = conv.id)
    ∧ (∀ e, (Conv.addMessageWithToolCalls conv role content toolCalls).1
          = Except.error e →
        (Conv.addMessageWithToolCalls conv role content toolCalls).2 = conv)
    ∧ ((Conv.addMessageWithToolCalls conv role content toolCalls).1 = Except.ok () →
        Conv.getHistory (Conv.addMessageWithToolCalls conv role content toolCalls).2
          = Conv.getHistory conv ++ [⟨role, Chunker.trimC content, some toolCalls⟩]
        ∧ (Conv.addMessageWithToolCalls conv role content toolCalls).2.id = conv.id) := by
  unfold Conv.addMessage Conv.addMessageWithToolCalls Conv.getHistory
  by_cases hc : (Chunker.trimC content).length = 0 <;>
    by_cases ht : toolCalls.length = 0 <;>
      simp_all

/-- Witness for C10 at concrete inputs: a successful `addMessage` call
appends exactly the trimmed message, and a failing one leaves the
conversation untouched. -/
theorem conversation_atomic_append_witness :
    (Conv.getHistory (Conv.addMessage ⟨"c2".toList, []⟩ Conv.MessageRole.user
        " hi ".toList).2
      = Conv.getHistory ⟨"c2".toList, []⟩
          ++ [⟨Conv.MessageRole.user, Chunker.trimC " hi ".toList, none⟩]
      ∧ (Conv.addMessage ⟨"c2".toList, []⟩ Conv.MessageRole.user " hi ".toList).2.id
        = (⟨"c2".toList, []⟩ : Conv.Conversation).id)
    ∧ (Conv.addMessage ⟨"c2".toList, []⟩ Conv.MessageRole.user "  ".toList).2
      = (⟨"c2".toList, []⟩ : Conv.Conversation) :=
  ⟨(conversation_atomic_append ⟨"c2".toList, []⟩ Conv.MessageRole.user
      " hi ".toList []).2.1 rfl,
   (conversation_atomic_append ⟨"c2".toList, []⟩ Conv.MessageRole.user
      "  ".toList []).1 "Message content cannot be empty" rfl⟩

/-! ### Agent loop (C1, C2, C4) -/

/-- Helper: the streaming turn loop makes at most `fuel` Completion Port
calls. -/
theorem generateStreamLoop_calls_le (oracle : List Agent.GMessage → Agent.StreamResponse)
    (deps : Agent.ToolDependencies) :
    ∀ (fuel : ℕ) (msgs : List Agent.GMessage) (acc : List String),
      (Agent.generateStreamLoop oracle deps fuel msgs acc).calls ≤ fuel := by
  intro fuel
  induction fuel with
  | zero => intro msgs acc; simp [Agent.generateStreamLoop]
  | succ n ih =>
    intro msgs acc
    simp only [Agent.generateStreamLoop]
    rcases hr : (oracle msgs).response with e | ov
    · simp
    · rcases ov with _ | l
      · simp
      · rcases l with _ | ⟨req, rest⟩
        · simp
        · simpa using Nat.succ_le_succ (ih _ _)

/-- Counterexample to C1: with a Completion Port that answers every call
with a tool request, the buffered loop (`runAgentLoop`, a `while (true)`
with no turn counter) is still running after 6 iterations — it has made
6 Completion Port calls, more than the claimed budget of 5. -/
theorem runAgentLoop_unbounded_counterexample :
    Agent.runAgentLoop Agent.alwaysToolOracle Agent.okWebDeps 6 []
      = Agent.LoopResult.outOfFuel 6
    ∧ ¬ (Agent.LoopResult.outOfFuel 6).calls ≤ 5 := by
  constructor
  · rfl
  · decide

/-- C1 (amended): only the streaming loop carries the 5-turn budget —
`generateStream` makes at most `maxTurns = 5` Completion Port calls for
every oracle, dependency set and history, and terminates without
raising; the buffered `runAgentLoop` has no turn bound: under an
always-tool Completion Port it performs exactly `n` calls in `n`
observed iterations and never returns, for every `n`. -/
theorem agent_loop_turn_budget_amended :
    (∀ (oracle : List Agent.GMessage → Agent.StreamResponse)
        (deps : Agent.ToolDependencies) (msgs : List Agent.GMessage),
      (Agent.generateStream oracle deps msgs).calls ≤ Agent.maxTurns)
    ∧ (∀ (n : ℕ) (msgs : List Agent.GMessage),
        Agent.runAgentLoop Agent.alwaysToolOracle Agent.okWebDeps n msgs
          = Agent.LoopResult.outOfFuel n) := by
  constructor
  · intro oracle deps msgs
    exact generateStreamLoop_calls_le oracle deps Agent.maxTurns msgs []
  · intro n
    induction n with
    | zero => intro msgs; rfl
    | succ m ih =>
      intro msgs
      have step : Agent.runAgentLoop Agent.alwaysToolOracle Agent.okWebDeps (m + 1) msgs
          = Agent.bumpCalls (Agent.runAgentLoop Agent.alwaysToolOracle Agent.okWebDeps m
              ((msgs ++ [Agent.toolRequestMsg ⟨"web_search", ⟨"q"⟩, "r"⟩])
                ++ [Agent.toolResponseMsg ⟨"web_search", ⟨"q"⟩, "r"⟩
                      (Agent.RVal.list [])])) := rfl
      rw [step, ih]
      rfl

/-- Counterexample to C2: in buffered mode the dispatched tool adapter's
exception propagates — `executeToolManually` has no try/catch, so a
`web_search` adapter that throws makes the whole `runAgentLoop` (and
hence `generateResponse`) terminate abnormally after one Completion Port
call instead of folding an error description and continuing. -/
theorem tool_error_propagates_counterexample :
    Agent.runAgentLoop Agent.oneWebRequestOracle Agent.throwingWebDeps 5 []
      = Agent.LoopResult.threw "network down" 1 := rfl

/-- C2 (amended): in streaming mode the claim holds — an unknown or
unregistered tool folds the fallback `"Tool unavailable"`, a throwing
adapter folds `"Error: <message>"`, and the loop continues with the
result appended to the transcript.  In buffered mode only the
unknown-tool case is recovered (with the fallback
`"No information found."`); an adapter exception propagates out of
`runAgentLoop` as an abnormal termination. -/
theorem tool_failure_handling_amended :
    (∀ (req : Agent.ToolRequest) (deps : Agent.ToolDependencies),
      (deps.webSearch = none ∨ req.toolName ≠ "web_search") →
      (deps.knowledgeBase = none ∨ req.toolName ≠ "knowledge_base") →
      Agent.streamExecuteTool req deps = Agent.RVal.str "Tool unavailable")
    ∧ (∀ (req : Agent.ToolRequest) (deps : Agent.ToolDependencies) f e,
        deps.webSearch = some f → req.toolName = "web_search" →
        f req.input.query = Except.error e →
        Agent.streamExecuteTool req deps = Agent.RVal.str ("Error: " ++ e))
    ∧ (∀ (req : Agent.ToolRequest) (deps : Agent.ToolDependencies) f e,
        deps.knowledgeBase = some f → req.toolName = "knowledge_base" →
        f req.input.query = Except.error e →
        Agent.streamExecuteTool req deps = Agent.RVal.str ("Error: " ++ e))
    ∧ (∀ (oracle : List Agent.GMessage → Agent.StreamResponse)
        (deps : Agent.ToolDependencies) (fuel : ℕ) (msgs : List Agent.GMessage)
        (acc : List String) (req : Agent.ToolRequest) (rest : List Agent.ToolRequest),
        (oracle msgs).response = Except.ok (some (req :: rest)) →
        Agent.generateStreamLoop oracle deps (fuel + 1) msgs acc
          = (let r := Agent.generateStreamLoop oracle deps fuel
                (msgs ++ [Agent.toolRequestMsg req]
                  ++ [Agent.toolResponseMsg req (Agent.streamExecuteTool req deps)])
                (acc ++ (oracle msgs).chunks.filter (fun s => s ≠ ""));
             ⟨r.yielded, r.calls + 1, r.transcript⟩))
    ∧ (∀ (name : String) (inp : Agent.ToolInput) (deps : Agent.ToolDependencies),
        (deps.webSearch = none ∨ name ≠ "web_search") →
        (deps.knowledgeBase = none ∨ name ≠ "knowledge_base") →
        Agent.executeToolManually name inp deps
          = Except.ok (Agent.RVal.str "No information found."))
    ∧ (∀ (oracle : List Agent.GMessage → Agent.GenResponse)
        (deps : Agent.ToolDependencies) (fuel : ℕ) (msgs : List Agent.GMessage)
        (req : Agent.ToolRequest) (rest : List Agent.ToolRequest) (e : String),
        (oracle msgs).output = Except.ok (some (req :: rest)) →
        Agent.executeToolManually req.toolName req.input deps = Except.error e →
        Agent.runAgentLoop oracle deps (fuel + 1) msgs = Agent.LoopResult.threw e 1) := by
  refine ⟨?_, ?_, ?_, ?_, ?_, ?_⟩
  · rintro ⟨name, inp, ref⟩ ⟨ws, kb⟩ hws hkb
    rcases ws with _ | w <;> rcases kb with _ | k <;>
      simp_all [Agent.streamExecuteTool]
  · rintro ⟨name, inp, ref⟩ ⟨ws, kb⟩ f e hws hname hf
    subst hname
    simp_all [Agent.streamExecuteTool]
  · rintro ⟨name, inp, ref⟩ ⟨ws, kb⟩ f e hkb hname hf
    subst hname
    rcases ws with _ | w <;> simp_all [Agent.streamExecuteTool]
  · intro oracle deps fuel msgs acc req rest hresp
    simp [Agent.generateStreamLoop, hresp, List.append_assoc]
  · rintro name inp ⟨ws, kb⟩ hws hkb
    rcases ws with _ | w <;> rcases kb with _ | k <;>
      simp_all [Agent.executeToolManually]
  · intro oracle deps fuel msgs req rest e hresp hexec
    simp only [Agent.runAgentLoop, hresp, hexec]

/-- Witness for the amended C2: the throwing web adapter's message is
folded as `"Error: network down"` by the streaming dispatch, and the
unknown tool name folds the buffered fallback record. -/
theorem tool_failure_handling_amended_witness :
    Agent.streamExecuteTool ⟨"web_search", ⟨"q"⟩, "r"⟩ Agent.throwingWebDeps
      = Agent.RVal.str "Error: network down"
    ∧ Agent.executeToolManually "file_system" ⟨"q"⟩ Agent.throwingWebDeps
      = Except.ok (Agent.RVal.str "No information found.") :=
  ⟨tool_failure_handling_amended.2.1 ⟨"web_search", ⟨"q"⟩, "r"⟩
      Agent.throwingWebDeps (fun _ => Except.error "network down") "network down"
      rfl rfl rfl,
   tool_failure_handling_amended.2.2.2.2.1 "file_system" ⟨"q"⟩
      Agent.throwingWebDeps (Or.inr (by decide)) (Or.inl rfl)⟩

/-- Counterexample to C4: when the knowledge-base adapter yields an empty
list, the streaming loop folds the empty result itself (`{ result: [] }`)
into the transcript, and the buffered `executeToolManually` likewise
returns the empty list — neither substitutes the claimed explicit
`"No information found for this query"` content. -/
theorem empty_result_folding_counterexample :
    (Agent.generateStream Agent.kbOnceStreamOracle Agent.emptyKbDeps []).transcript
      = [Agent.toolRequestMsg Agent.kbReq,
         Agent.toolResponseMsg Agent.kbReq (Agent.RVal.list [])]
    ∧ Agent.RVal.list [] ≠ Agent.RVal.str "No information found for this query"
    ∧ Agent.executeToolManually "knowledge_base" ⟨"rag"⟩ Agent.emptyKbDeps
      = Except.ok (Agent.RVal.list []) := by
  refine ⟨rfl, ?_, rfl⟩
  decide

/-- C4 (amended): an empty adapter result is folded back into the
transcript unchanged, as the empty list, in both modes; the only
"no information" substitution in the sources is the buffered
`executeToolManually` fallback `"No information found."`, used when the
named tool is not registered or its dependency is absent — not when a
dispatched adapter returns an empty result. -/
theorem empty_result_folding_amended :
    (∀ (deps : Agent.ToolDependencies) (q ref : String) f,
      deps.knowledgeBase = some f → f q = Except.ok [] →
      Agent.streamExecuteTool ⟨"knowledge_base", ⟨q⟩, ref⟩ deps = Agent.RVal.list []
      ∧ Agent.executeToolManually "knowledge_base" ⟨q⟩ deps
          = Except.ok (Agent.RVal.list []))
    ∧ (∀ (name : String) (inp : Agent.ToolInput) (deps : Agent.ToolDependencies),
        (deps.webSearch = none ∨ name ≠ "web_search") →
        (deps.knowledgeBase = none ∨ name ≠ "knowledge_base") →
        Agent.executeToolManually name inp deps
          = Except.ok (Agent.RVal.str "No information found.")) := by
  constructor
  · rintro ⟨ws, kb⟩ q ref f hkb hf
    rcases ws with _ | w <;>
      simp_all [Agent.streamExecuteTool, Agent.executeToolManually, Except.map]
  · rintro name inp ⟨ws, kb⟩ hws hkb
    rcases ws with _ | w <;> rcases kb with _ | k <;>
      simp_all [Agent.executeToolManually]

/-- Witness for the amended C4: with a knowledge base that returns no
chunks the streaming dispatch folds the empty list. -/
theorem empty_result_folding_amended_witness :
    Agent.streamExecuteTool ⟨"knowledge_base", ⟨"rag"⟩, "ref-456"⟩ Agent.emptyKbDeps
      = Agent.RVal.list []
    ∧ Agent.executeToolManually "knowledge_base" ⟨"rag"⟩ Agent.emptyKbDeps
      = Except.ok (Agent.RVal.list []) :=
  empty_result_folding_amended.1 Agent.emptyKbDeps "rag" "ref-456"
    (fun _ => Except.ok []) rfl rfl

/-! ### Knowledge base (C3, C5, C6) -/

/-- Helper: a sum of squares is non-negative. -/
theorem sumSq_nonneg (a : List ℝ) : 0 ≤ KB.sumSq a := by
  unfold KB.sumSq
  apply List.sum_nonneg
  intro x hx
  rcases List.mem_map.mp hx with ⟨y, _, rfl⟩
  exact mul_self_nonneg y

/-- Helper: Cauchy–Schwarz for the list dot product (any lengths). -/
theorem dotProduct_sq_le (a : List ℝ) : ∀ b : List ℝ,
    (KB.dotProduct a b) ^ 2 ≤ KB.sumSq a * KB.sumSq b := by
  induction a with
  | nil =>
    intro b
    simp [KB.dotProduct, KB.sumSq]
  | cons x as ih =>
    intro b
    rcases b with _ | ⟨y, bs⟩
    · simp [KB.dotProduct, KB.sumSq]
    · have h := ih bs
      have hsa : 0 ≤ KB.sumSq as := sumSq_nonneg as
      have hsb : 0 ≤ KB.sumSq bs := sumSq_nonneg bs
      have step : (x * y + KB.dotProduct as bs) ^ 2
          ≤ (x * x + KB.sumSq as) * (y * y + KB.sumSq bs) := by
        rcases eq_or_lt_of_le hsb with hsb0 | hsb0
        · have hd : KB.dotProduct as bs = 0 := by nlinarith [sq_nonneg (KB.dotProduct as bs)]
          rw [hd]
          nlinarith [mul_nonneg hsa (sq_nonneg y), sq_nonneg x]
        · have key : 0 ≤ KB.sumSq bs * ((x * x + KB.sumSq as) * (y * y + KB.sumSq bs)
              - (x * y + KB.dotProduct as bs) ^ 2) := by
            nlinarith [sq_nonneg (x * KB.sumSq bs - y * KB.dotProduct as bs),
              mul_nonneg (add_nonneg (sq_nonneg y) hsb) (sub_nonneg.mpr h)]
          nlinarith [key, hsb0]
      simpa [KB.dotProduct, KB.sumSq] using step

/-- Helper: the dot product of a vector with itself is its summed
squares. -/
theorem dotProduct_self (a : List ℝ) : KB.dotProduct a a = KB.sumSq a := by
  induction a with
  | nil => simp [KB.dotProduct, KB.sumSq]
  | cons x as ih => simp_all [KB.dotProduct, KB.sumSq]

/-- Helper: the dot product with the negated vector. -/
theorem dotProduct_map_neg (a : List ℝ) :
    KB.dotProduct a (a.map (fun x => -x)) = - KB.sumSq a := by
  induction a with
  | nil => simp [KB.dotProduct, KB.sumSq]
  | cons x as ih => simp_all [KB.dotProduct, KB.sumSq]; try ring

/-- Helper: negating every entry preserves the summed squares. -/
theorem sumSq_map_neg (a : List ℝ) : KB.sumSq (a.map (fun x => -x)) = KB.sumSq a := by
  induction a with
  | nil => simp [KB.sumSq]
  | cons x as ih => simp_all [KB.sumSq]; try ring

/-- Helper: `magnitude` squared recovers the summed squares. -/
theorem magnitude_mul_self (a : List ℝ) :
    KB.magnitude a * KB.magnitude a = KB.sumSq a :=
  Real.mul_self_sqrt (sumSq_nonneg a)

/-- C3 (amended): for all vectors, `cosineSimilarity` equals
`dot(a,b) / (|a| * |b|)` whenever the denominator is non-zero, every
defined value lies in `[-1, 1]`, identical non-zero vectors give exactly
`1`, orthogonal vectors with non-zero magnitudes give exactly `0`,
opposite vectors give exactly `-1` (the exact-real model subsumes the
`1e-5` tolerances); but when either vector has zero magnitude the JS
division `0 / 0` produces NaN (modelled `none`) — an undefined value,
not the similarity `0` the claim states. -/
theorem cosineSimilarity_amended (a b : List ℝ) :
    (∀ x, KB.cosineSimilarity a b = some x → -1 ≤ x ∧ x ≤ 1)
    ∧ (KB.magnitude a * KB.magnitude b ≠ 0 →
        KB.cosineSimilarity a b
          = some (KB.dotProduct a b / (KB.magnitude a * KB.magnitude b)))
    ∧ (KB.sumSq a ≠ 0 → KB.cosineSimilarity a a = some 1)
    ∧ (KB.dotProduct a b = 0 → KB.magnitude a * KB.magnitude b ≠ 0 →
        KB.cosineSimilarity a b = some 0)
    ∧ (KB.sumSq a ≠ 0 → KB.cosineSimilarity a (a.map (fun x => -x)) = some (-1))
    ∧ (KB.magnitude a = 0 ∨ KB.magnitude b = 0 → KB.cosineSimilarity a b = none) := by
  refine ⟨?_, ?_, ?_, ?_, ?_, ?_⟩
  · intro x hx
    unfold KB.cosineSimilarity at hx
    by_cases hD : KB.magnitude a * KB.magnitude b = 0
    · rw [if_pos hD] at hx; exact absurd hx (by simp)
    · rw [if_neg hD] at hx
      have hx' : x = KB.dotProduct a b / (KB.magnitude a * KB.magnitude b) :=
        (Option.some_injective _ hx).symm
      have hDpos : 0 < KB.magnitude a * KB.magnitude b :=
        lt_of_le_of_ne (mul_nonneg (Real.sqrt_nonneg _) (Real.sqrt_nonneg _)) (Ne.symm hD)
      have hsq : (KB.dotProduct a b) ^ 2 ≤ (KB.magnitude a * KB.magnitude b) ^ 2 := by
        have : (KB.magnitude a * KB.magnitude b) ^ 2 = KB.sumSq a * KB.sumSq b := by
          rw [mul_pow, sq, sq, magnitude_mul_self, magnitude_mul_self]
        rw [this]
        exact dotProduct_sq_le a b
      have hub : KB.dotProduct a b ≤ KB.magnitude a * KB.magnitude b := by
        nlinarith [hsq, hDpos]
      have hlb : -(KB.magnitude a * KB.magnitude b) ≤ KB.dotProduct a b := by
        nlinarith [hsq, hDpos]
      subst hx'
      constructor
      · rw [le_div_iff₀ hDpos]; linarith
      · rw [div_le_one hDpos]; exact hub
  · intro hD
    unfold KB.cosineSimilarity
    rw [if_neg hD]
  · intro h
    unfold KB.cosineSimilarity
    rw [if_neg (by rw [magnitude_mul_self]; exact h)]
    rw [dotProduct_self, magnitude_mul_self, div_self h]
  · intro h0 hD
    unfold KB.cosineSimilarity
    rw [if_neg hD, h0, zero_div]
  · intro h
    have hmag : KB.magnitude (a.map (fun x => -x)) = KB.magnitude a := by
      unfold KB.magnitude; rw [sumSq_map_neg]
    unfold KB.cosineSimilarity
    rw [hmag, magnitude_mul_self]
    rw [if_neg h, dotProduct_map_neg, neg_div, div_self h]
  · intro h
    unfold KB.cosineSimilarity
    rw [if_pos (mul_eq_zero.mpr h)]

/-- Counterexample to C3: for the zero vector the denominator is zero
and `cosineSimilarity` is the JS NaN (`none`), not the similarity `0`
the claim requires. -/
theorem cosineSimilarity_zero_magnitude_counterexample :
    KB.cosineSimilarity [(0 : ℝ)] [(1 : ℝ)] = none
    ∧ KB.cosineSimilarity [(0 : ℝ)] [(1 : ℝ)] ≠ some 0 := by
  have h : KB.magnitude [(0 : ℝ)] = 0 := by
    simp [KB.magnitude, KB.sumSq]
  have hc : KB.cosineSimilarity [(0 : ℝ)] [(1 : ℝ)] = none := by
    unfold KB.cosineSimilarity
    rw [if_pos (by rw [h, zero_mul])]
  exact ⟨hc, by simp [hc]⟩

/-- Witness for the amended C3: a concrete identical non-zero pair
scores exactly `1`. -/
theorem cosineSimilarity_amended_witness :
    KB.sumSq [(1 : ℝ), 0] ≠ 0
    ∧ KB.cosineSimilarity [(1 : ℝ), 0] [(1 : ℝ), 0] = some 1 := by
  have h : KB.sumSq [(1 : ℝ), 0] ≠ 0 := by norm_num [KB.sumSq]
  exact ⟨h, (cosineSimilarity_amended [(1 : ℝ), 0] [(1 : ℝ), 0]).2.2.1 h⟩

/-- C6: `search` never raises — its embedding is a total function whose
`catch`-branches return the empty list: if the index is not ready on
entry and still not ready after the single bounded wait (the model's two
readiness observations encode exactly one 500 ms pause, not a retry
loop), it returns `[]`; a thrown or failed query embedding returns `[]`;
otherwise it returns the pure scoring pipeline's texts. -/
theorem search_never_raises (chunks : List KB.DocumentChunk) (r1 r2 : Bool)
    (e : String) (qv : List ℝ) :
    KB.search false false (Except.ok (some qv)) chunks = []
    ∧ KB.search r1 r2 (Except.error e) chunks = []
    ∧ KB.search r1 r2 (Except.ok none) chunks = []
    ∧ (r1 = true ∨ r2 = true →
        KB.search r1 r2 (Except.ok (some qv)) chunks = KB.searchTexts qv chunks) := by
  cases r1 <;> cases r2 <;> simp [KB.search]

/-- Witness for C6: concrete not-ready and embedding-failure searches
return the empty list. -/
theorem search_never_raises_witness :
    KB.search false false (Except.error "embed failed") ([] : List KB.DocumentChunk) = []
    ∧ KB.search true true (Except.ok none) ([] : List KB.DocumentChunk) = [] :=
  ⟨(search_never_raises [] false false "embed failed" []).2.1,
   (search_never_raises [] true true "embed failed" []).2.2.1⟩

/-- Helper: `magnitude` of a vector whose summed squares are a perfect
square. -/
theorem magnitude_of_sumSq (a : List ℝ) (m : ℝ) (hm : 0 ≤ m)
    (h : KB.sumSq a = m * m) : KB.magnitude a = m := by
  unfold KB.magnitude
  rw [h]
  exact Real.sqrt_mul_self hm

/-- Helper: `cosineSimilarity` through known non-zero magnitudes. -/
theorem cosineSimilarity_of_mag (a b : List ℝ) (ma mb : ℝ)
    (hma : KB.magnitude a = ma) (hmb : KB.magnitude b = mb) (hne : ma * mb ≠ 0) :
    KB.cosineSimilarity a b = some (KB.dotProduct a b / (ma * mb)) := by
  unfold KB.cosineSimilarity
  rw [hma, hmb, if_neg hne]

/-- Helper: a second vector with zero summed squares gives the NaN
score. -/
theorem cosineSimilarity_nan_right (a b : List ℝ) (hb : KB.sumSq b = 0) :
    KB.cosineSimilarity a b = none := by
  have hmb : KB.magnitude b = 0 := by
    unfold KB.magnitude
    rw [hb, Real.sqrt_zero]
  unfold KB.cosineSimilarity
  rw [if_pos (by rw [hmb, mul_zero])]

/-- Helper: the engine comparison on two real-scored entries is the
comparator sign test. -/
theorem sortLe_of_scores {p q : String × Option ℝ} {a b : ℝ}
    (hp : p.2 = some a) (hq : q.2 = some b) :
    KB.sortLe p q = !(decide (0 < b - a)) := by
  unfold KB.sortLe
  rw [hp, hq]

/-- Helper: a NaN score on the right never forces a swap. -/
theorem sortLe_none_right {p q : String × Option ℝ} (hq : q.2 = none) :
    KB.sortLe p q = true := by
  unfold KB.sortLe
  rcases h : p.2 with _ | a <;> rw [hq]

/-- Helper: a NaN score on the left never forces a swap. -/
theorem sortLe_none_left {p q : String × Option ℝ} (hp : p.2 = none) :
    KB.sortLe p q = true := by
  unfold KB.sortLe
  rcases h : q.2 with _ | b <;> rw [hp]

/-- Helper: a kept comparison on real scores means descending order. -/
theorem le_of_sortLe {p q : String × Option ℝ} {a b : ℝ}
    (hp : p.2 = some a) (hq : q.2 = some b) (h : KB.sortLe p q = true) : b ≤ a := by
  rw [sortLe_of_scores hp hq] at h
  simp only [Bool.not_eq_true', decide_eq_false_iff_not, not_lt] at h
  linarith

/-- Helper: a swapped comparison on real scores means ascending order. -/
theorem le_of_sortLe_false {p q : String × Option ℝ} {a b : ℝ}
    (hp : p.2 = some a) (hq : q.2 = some b) (h : KB.sortLe p q = false) : a ≤ b := by
  rw [sortLe_of_scores hp hq] at h
  simp only [Bool.not_eq_false', decide_eq_true_eq] at h
  linarith

/-- Helper: building the score comparison from known real scores. -/
theorem scoreGe_of_le {p q : String × Option ℝ} {a b : ℝ}
    (hp : p.2 = some a) (hq : q.2 = some b) (h : b ≤ a) : KB.scoreGe p q := by
  intro a' b' hp' hq'
  rw [hp, Option.some_inj] at hp'
  rw [hq, Option.some_inj] at hq'
  rw [← hp', ← hq']
  exact h

/-- Helper: the score comparison chains through a real-scored middle
entry. -/
theorem scoreGe_trans_some {p q r : String × Option ℝ} {b : ℝ} (hq : q.2 = some b)
    (h1 : KB.scoreGe p q) (h2 : KB.scoreGe q r) : KB.scoreGe p r := by
  intro a c ha hc
  exact le_trans (h2 b c hq hc) (h1 a b ha hq)

/-- Helper: the merge step permutes the concatenation of its runs. -/
theorem mergeScored_perm : ∀ xs ys : List (String × Option ℝ),
    (KB.mergeScored xs ys).Perm (xs ++ ys) := by
  intro xs ys
  induction xs, ys using KB.mergeScored.induct with
  | case1 ys => rw [KB.mergeScored.eq_1, List.nil_append]
  | case2 x xs => rw [KB.mergeScored.eq_2, List.append_nil]
  | case3 x xs y ys h ih =>
    rw [KB.mergeScored.eq_3, if_pos h]
    exact ih.cons x
  | case4 x xs y ys h ih =>
    rw [KB.mergeScored.eq_3, if_neg h]
    exact (ih.cons y).trans List.perm_middle.symm

/-- Helper: the modelled engine sort permutes its input. -/
theorem sortByScoreDesc_perm : ∀ l : List (String × Option ℝ),
    (KB.sortByScoreDesc l).Perm l := by
  intro l
  induction l using KB.sortByScoreDesc.induct with
  | case1 => rw [KB.sortByScoreDesc.eq_1]
  | case2 x => rw [KB.sortByScoreDesc.eq_2]
  | case3 x y rest ih1 ih2 =>
    rw [KB.sortByScoreDesc.eq_3]
    refine (mergeScored_perm _ _).trans ?_
    refine (ih1.append ih2).trans ?_
    rw [List.take_append_drop]

/-- Helper: sorting preserves membership. -/
theorem mem_sortByScoreDesc {p : String × Option ℝ} {l : List (String × Option ℝ)} :
    p ∈ KB.sortByScoreDesc l ↔ p ∈ l :=
  (sortByScoreDesc_perm l).mem_iff

/-- Helper: merging two descending all-real-scored runs is descending. -/
theorem mergeScored_pairwise_ge : ∀ xs ys : List (String × Option ℝ),
    (∀ p ∈ xs, ∃ x, p.2 = some x) → (∀ p ∈ ys, ∃ x, p.2 = some x) →
    List.Pairwise KB.scoreGe xs → List.Pairwise KB.scoreGe ys →
    List.Pairwise KB.scoreGe (KB.mergeScored xs ys) := by
  intro xs ys
  induction xs, ys using KB.mergeScored.induct with
  | case1 ys =>
    intro _ _ _ hy
    rw [KB.mergeScored.eq_1]
    exact hy
  | case2 x xs =>
    intro _ _ hx _
    rw [KB.mergeScored.eq_2]
    exact hx
  | case3 x xs y ys hle ih =>
    intro hxr hyr hx hy
    rw [KB.mergeScored.eq_3, if_pos hle]
    rcases hxr x (List.mem_cons_self x xs) with ⟨a, ha⟩
    rcases hyr y (List.mem_cons_self y ys) with ⟨b, hb⟩
    have hxy : KB.scoreGe x y := scoreGe_of_le ha hb (le_of_sortLe ha hb hle)
    have hx' := List.pairwise_cons.mp hx
    have hy' := List.pairwise_cons.mp hy
    refine List.Pairwise.cons ?_ (ih (fun p hp => hxr p (List.mem_cons_of_mem x hp))
      hyr hx'.2 hy)
    intro z hz
    rcases List.mem_append.mp ((mergeScored_perm _ _).subset hz) with hzx | hzy
    · exact hx'.1 z hzx
    · rcases List.mem_cons.mp hzy with rfl | hzy'
      · exact hxy
      · exact scoreGe_trans_some hb hxy (hy'.1 z hzy')
  | case4 x xs y ys hle ih =>
    intro hxr hyr hx hy
    rw [KB.mergeScored.eq_3, if_neg hle]
    rcases hxr x (List.mem_cons_self x xs) with ⟨a, ha⟩
    rcases hyr y (List.mem_cons_self y ys) with ⟨b, hb⟩
    have hyx : KB.scoreGe y x :=
      scoreGe_of_le hb ha (le_of_sortLe_false ha hb (Bool.not_eq_true _ ▸ hle))
    have hx' := List.pairwise_cons.mp hx
    have hy' := List.pairwise_cons.mp hy
    refine List.Pairwise.cons ?_ (ih hxr (fun p hp => hyr p (List.mem_cons_of_mem y hp))
      hx hy'.2)
    intro z hz
    rcases List.mem_append.mp ((mergeScored_perm _ _).subset hz) with hzx | hzy
    · rcases List.mem_cons.mp hzx with rfl | hzx'
      · exact hyx
      · exact scoreGe_trans_some ha hyx (hx'.1 z hzx')
    · exact hy'.1 z hzy

/-- Helper: when every score is real, the modelled engine sort is
descending. -/
theorem sortByScoreDesc_pairwise_ge : ∀ l : List (String × Option ℝ),
    (∀ p ∈ l, ∃ x, p.2 = some x) →
    List.Pairwise KB.scoreGe (KB.sortByScoreDesc l) := by
  intro l
  induction l using KB.sortByScoreDesc.induct with
  | case1 =>
    intro _
    rw [KB.sortByScoreDesc.eq_1]
    exact List.Pairwise.nil
  | case2 x =>
    intro _
    rw [KB.sortByScoreDesc.eq_2]
    exact List.pairwise_singleton _ _
  | case3 x y rest ih1 ih2 =>
    intro hr
    rw [KB.sortByScoreDesc.eq_3]
    refine mergeScored_pairwise_ge _ _ ?_ ?_
      (ih1 (fun p hp => hr p (List.mem_of_mem_take hp)))
      (ih2 (fun p hp => hr p (List.mem_of_mem_drop hp)))
    · intro p hp
      exact hr p (List.mem_of_mem_take (mem_sortByScoreDesc.mp hp))
    · intro p hp
      exact hr p (List.mem_of_mem_drop (mem_sortByScoreDesc.mp hp))

/-- Helper: the similarity of the probe query with `[3, 4]`. -/
theorem cos_probe_34 :
    KB.cosineSimilarity [(1 : ℝ), 0] [(3 : ℝ), 4] = some ((3 : ℝ) / 5) := by
  have h := cosineSimilarity_of_mag [(1 : ℝ), 0] [(3 : ℝ), 4] 1 5
    (magnitude_of_sumSq _ 1 (by norm_num) (by norm_num [KB.sumSq]))
    (magnitude_of_sumSq _ 5 (by norm_num) (by norm_num [KB.sumSq]))
    (by norm_num)
  rw [h]
  norm_num [KB.dotProduct]

/-- Helper: the similarity of the probe query with the zero vector is
the NaN score. -/
theorem cos_probe_zero :
    KB.cosineSimilarity [(1 : ℝ), 0] [(0 : ℝ), 0] = none :=
  cosineSimilarity_nan_right _ _ (by norm_num [KB.sumSq])

/-- Helper: the similarity of the probe query with itself. -/
theorem cos_probe_self :
    KB.cosineSimilarity [(1 : ℝ), 0] [(1 : ℝ), 0] = some 1 := by
  have h := cosineSimilarity_of_mag [(1 : ℝ), 0] [(1 : ℝ), 0] 1 1
    (magnitude_of_sumSq _ 1 (by norm_num) (by norm_num [KB.sumSq]))
    (magnitude_of_sumSq _ 1 (by norm_num) (by norm_num [KB.sumSq]))
    (by norm_num)
  rw [h]
  norm_num [KB.dotProduct]

/-- Helper: the threshold keeps a real score above `0.3`. -/
theorem scoreAbove_of_lt {x : ℝ} (h : (3 : ℝ) / 10 < x) :
    KB.scoreAbove (some x) = true := by
  simp only [KB.scoreAbove, decide_eq_true_eq]
  exact h

/-- Counterexample to C5 (NaN scores): the store holds two `3/5`-scoring
chunks, then a zero vector (NaN score), then a `1`-scoring chunk; the
modelled engine sort leaves the NaN in place, the NaN shields the best
chunk, and the returned scores `[3/5, 3/5, 1]` are not descending. -/
theorem search_ranking_nan_counterexample :
    KB.search true true (Except.ok (some [(1 : ℝ), 0]))
        [⟨0, "t1", some [(3 : ℝ), 4]⟩, ⟨1, "t2", some [(3 : ℝ), 4]⟩,
         ⟨2, "t3", some [(0 : ℝ), 0]⟩, ⟨3, "t4", some [(1 : ℝ), 0]⟩]
      = ["t1", "t2", "t4"]
    ∧ (KB.searchPipeline [(1 : ℝ), 0]
        [⟨0, "t1", some [(3 : ℝ), 4]⟩, ⟨1, "t2", some [(3 : ℝ), 4]⟩,
         ⟨2, "t3", some [(0 : ℝ), 0]⟩, ⟨3, "t4", some [(1 : ℝ), 0]⟩]).map Prod.snd
      = [some ((3 : ℝ) / 5), some ((3 : ℝ) / 5), some 1]
    ∧ ¬ List.Pairwise KB.scoreGe
        (KB.searchPipeline [(1 : ℝ), 0]
          [⟨0, "t1", some [(3 : ℝ), 4]⟩, ⟨1, "t2", some [(3 : ℝ), 4]⟩,
           ⟨2, "t3", some [(0 : ℝ), 0]⟩, ⟨3, "t4", some [(1 : ℝ), 0]⟩]) := by
  have hsc : KB.scoredChunks [(1 : ℝ), 0]
      [⟨0, "t1", some [(3 : ℝ), 4]⟩, ⟨1, "t2", some [(3 : ℝ), 4]⟩,
       ⟨2, "t3", some [(0 : ℝ), 0]⟩, ⟨3, "t4", some [(1 : ℝ), 0]⟩]
      = [("t1", some ((3 : ℝ) / 5)), ("t2", some ((3 : ℝ) / 5)),
         ("t3", (none : Option ℝ)), ("t4", some (1 : ℝ))] := by
    simp [KB.scoredChunks, cos_probe_34, cos_probe_zero, cos_probe_self]
  have hle12 : KB.sortLe ("t1", some ((3 : ℝ) / 5)) ("t2", some ((3 : ℝ) / 5)) = true := by
    rw [sortLe_of_scores rfl rfl]
    simp only [Bool.not_eq_true', decide_eq_false_iff_not, not_lt]
    norm_num
  have hle34 : KB.sortLe ("t3", (none : Option ℝ)) ("t4", some (1 : ℝ)) = true :=
    sortLe_none_left rfl
  have hle13 : KB.sortLe ("t1", some ((3 : ℝ) / 5)) ("t3", (none : Option ℝ)) = true :=
    sortLe_none_right rfl
  have hle23 : KB.sortLe ("t2", some ((3 : ℝ) / 5)) ("t3", (none : Option ℝ)) = true :=
    sortLe_none_right rfl
  have hm12 : KB.mergeScored [("t1", some ((3 : ℝ) / 5))] [("t2", some ((3 : ℝ) / 5))]
      = [("t1", some ((3 : ℝ) / 5)), ("t2", some ((3 : ℝ) / 5))] := by
    rw [KB.mergeScored.eq_3, if_pos hle12, KB.mergeScored.eq_1]
  have hm34 : KB.mergeScored [("t3", (none : Option ℝ))] [("t4", some (1 : ℝ))]
      = [("t3", (none : Option ℝ)), ("t4", some (1 : ℝ))] := by
    rw [KB.mergeScored.eq_3, if_pos hle34, KB.mergeScored.eq_1]
  have hmall : KB.mergeScored
      [("t1", some ((3 : ℝ) / 5)), ("t2", some ((3 : ℝ) / 5))]
      [("t3", (none : Option ℝ)), ("t4", some (1 : ℝ))]
      = [("t1", some ((3 : ℝ) / 5)), ("t2", some ((3 : ℝ) / 5)),
         ("t3", (none : Option ℝ)), ("t4", some (1 : ℝ))] := by
    rw [KB.mergeScored.eq_3, if_pos hle13, KB.mergeScored.eq_3, if_pos hle23,
      KB.mergeScored.eq_1]
  have hsort : KB.sortByScoreDesc
      [("t1", some ((3 : ℝ) / 5)), ("t2", some ((3 : ℝ) / 5)),
       ("t3", (none : Option ℝ)), ("t4", some (1 : ℝ))]
      = [("t1", some ((3 : ℝ) / 5)), ("t2", some ((3 : ℝ) / 5)),
         ("t3", (none : Option ℝ)), ("t4", some (1 : ℝ))] := by
    have e4 := KB.sortByScoreDesc.eq_3 ("t1", some ((3 : ℝ) / 5))
      ("t2", some ((3 : ℝ) / 5)) [("t3", (none : Option ℝ)), ("t4", some (1 : ℝ))]
    have e12 := KB.sortByScoreDesc.eq_3 ("t1", some ((3 : ℝ) / 5))
      ("t2", some ((3 : ℝ) / 5)) ([] : List (String × Option ℝ))
    have e34 := KB.sortByScoreDesc.eq_3 ("t3", (none : Option ℝ))
      ("t4", some (1 : ℝ)) ([] : List (String × Option ℝ))
    simp only [List.length_cons, List.length_nil] at e4 e12 e34
    norm_num [List.take, List.drop] at e4 e12 e34
    rw [e4, e12, e34, KB.sortByScoreDesc.eq_2, KB.sortByScoreDesc.eq_2,
      KB.sortByScoreDesc.eq_2, KB.sortByScoreDesc.eq_2, hm12, hm34, hmall]
  have hpipe : KB.searchPipeline [(1 : ℝ), 0]
      [⟨0, "t1", some [(3 : ℝ), 4]⟩, ⟨1, "t2", some [(3 : ℝ), 4]⟩,
       ⟨2, "t3", some [(0 : ℝ), 0]⟩, ⟨3, "t4", some [(1 : ℝ), 0]⟩]
      = [("t1", some ((3 : ℝ) / 5)), ("t2", some ((3 : ℝ) / 5)), ("t4", some (1 : ℝ))] := by
    unfold KB.searchPipeline
    rw [hsc, hsort]
    rw [List.filter_cons, List.filter_cons, List.filter_cons, List.filter_cons,
      List.filter_nil]
    rw [scoreAbove_of_lt (by norm_num), scoreAbove_of_lt (by norm_num)]
    simp [KB.scoreAbove]
  refine ⟨?_, ?_, ?_⟩
  · show KB.searchTexts [(1 : ℝ), 0] _ = _
    unfold KB.searchTexts
    rw [hpipe]
    rfl
  · rw [hpipe]
    rfl
  · rw [hpipe]
    intro h
    have h2 := (List.pairwise_cons.mp (List.pairwise_cons.mp h).2).1
      ("t4", some (1 : ℝ)) (List.mem_singleton.mpr rfl)
    have := h2 ((3 : ℝ) / 5) 1 rfl rfl
    norm_num at this

/-- C5 (amended): the ready-index search returns at most 3 texts, the
texts of the retained pipeline in order; every retained entry carries a
real score strictly greater than `0.3` and comes from a stored chunk
that has an embedding vector, scored by `cosineSimilarity` — chunks
without a vector are never scored or returned; and whenever every scored
chunk receives a real (non-NaN) score the pipeline is additionally
ordered from most to least similar.  With a NaN score (a zero-magnitude
vector) the comparator is inconsistent, ECMA-262 leaves the order
implementation-defined, and the descending guarantee fails. -/
theorem search_ranking_amended (qv : List ℝ) (chunks : List KB.DocumentChunk) :
    (KB.searchTexts qv chunks).length ≤ 3
    ∧ KB.searchTexts qv chunks = (KB.searchPipeline qv chunks).map Prod.fst
    ∧ (∀ p ∈ KB.searchPipeline qv chunks,
        (∃ x, p.2 = some x ∧ (3 : ℝ) / 10 < x)
        ∧ ∃ c ∈ chunks, ∃ v, c.vector = some v ∧ p.1 = c.text
            ∧ p.2 = KB.cosineSimilarity qv v)
    ∧ ((∀ p ∈ KB.scoredChunks qv chunks, ∃ x, p.2 = some x) →
        List.Pairwise KB.scoreGe (KB.searchPipeline qv chunks)) := by
  refine ⟨?_, rfl, ?_, ?_⟩
  · simp only [KB.searchTexts, KB.searchPipeline, List.length_map]
    exact List.length_take_le 3 _
  · intro p hp
    have hp1 : p ∈ (KB.sortByScoreDesc (KB.scoredChunks qv chunks)).filter
        (fun p => KB.scoreAbove p.2) := List.mem_of_mem_take hp
    have hp2 := List.mem_filter.mp hp1
    have hscore : ∃ x, p.2 = some x ∧ (3 : ℝ) / 10 < x := by
      rcases hs : p.2 with _ | x
      · rw [hs] at hp2
        simp [KB.scoreAbove] at hp2
      · rw [hs] at hp2
        refine ⟨x, rfl, ?_⟩
        have := hp2.2
        simpa [KB.scoreAbove] using this
    refine ⟨hscore, ?_⟩
    have hmem : p ∈ KB.scoredChunks qv chunks := mem_sortByScoreDesc.mp hp2.1
    rcases List.mem_filterMap.mp hmem with ⟨c, hc, hfc⟩
    rcases Option.map_eq_some'.mp hfc with ⟨v, hv, hpv⟩
    exact ⟨c, hc, v, hv, by rw [← hpv], by rw [← hpv]⟩
  · intro hall
    have hs := sortByScoreDesc_pairwise_ge (KB.scoredChunks qv chunks) hall
    exact List.Pairwise.sublist (List.take_sublist 3 _) (hs.filter _)

/-- Witness for the amended C5 at a concrete all-real store: a single
vectorized chunk queried with its own vector. -/
theorem search_ranking_amended_witness :
    (KB.searchTexts [(1 : ℝ), 0] [⟨0, "alpha", some [(1 : ℝ), 0]⟩]).length ≤ 3
    ∧ List.Pairwise KB.scoreGe
        (KB.searchPipeline [(1 : ℝ), 0] [⟨0, "alpha", some [(1 : ℝ), 0]⟩]) :=
  ⟨(search_ranking_amended [(1 : ℝ), 0] [⟨0, "alpha", some [(1 : ℝ), 0]⟩]).1,
   (search_ranking_amended [(1 : ℝ), 0] [⟨0, "alpha", some [(1 : ℝ), 0]⟩]).2.2.2
     (by
       intro p hp
       have hsc : KB.scoredChunks [(1 : ℝ), 0] [⟨0, "alpha", some [(1 : ℝ), 0]⟩]
           = [("alpha", some (1 : ℝ))] := by
         simp [KB.scoredChunks, cos_probe_self]
       rw [hsc] at hp
       rcases List.mem_singleton.mp hp with rfl
       exact ⟨1, rfl⟩)⟩

/-! ### Chunker (C7, C8) -/

/-- Helper: a member of a sentence inside a chunk is in the chunk's
joined text. -/
theorem mem_joinSp {x : Char} {s : List Char} : ∀ {l : List (List Char)},
    s ∈ l → x ∈ s → x ∈ Chunker.joinSp l := by
  intro l
  induction l with
  | nil => intro h; exact absurd h (List.not_mem_nil s)
  | cons t r ih =>
    intro hs hx
    cases r with
    | nil =>
      rcases List.mem_singleton.mp hs with rfl
      simpa [Chunker.joinSp] using hx
    | cons u r' =>
      rcases List.mem_cons.mp hs with rfl | hs'
      · simp [Chunker.joinSp]
        exact Or.inl hx
      · simp only [Chunker.joinSp, List.mem_append, List.mem_cons]
        exact Or.inr (Or.inr (ih hs' hx))

/-- Helper: every character of a joined chunk is the separator space or
a character of one of its sentences. -/
theorem joinSp_mem_decomp {x : Char} : ∀ {l : List (List Char)},
    x ∈ Chunker.joinSp l → x = ' ' ∨ ∃ s ∈ l, x ∈ s := by
  intro l
  induction l with
  | nil => intro h; simp [Chunker.joinSp] at h
  | cons t r ih =>
    intro hx
    cases r with
    | nil =>
      simp only [Chunker.joinSp] at hx
      exact Or.inr ⟨t, List.mem_singleton_self t, hx⟩
    | cons u r' =>
      simp only [Chunker.joinSp, List.mem_append, List.mem_cons] at hx
      rcases hx with hx | hx | hx
      · exact Or.inr ⟨t, List.mem_cons_self t _, hx⟩
      · exact Or.inl hx
      · rcases ih hx with h | ⟨s, hs, hxs⟩
        · exact Or.inl h
        · exact Or.inr ⟨s, List.mem_cons_of_mem t hs, hxs⟩

/-- Helper: a sentence of a chunk appears contiguously in the joined
text. -/
theorem joinSp_has_sent {s : List Char} : ∀ {l : List (List Char)},
    s ∈ l → s <:+: Chunker.joinSp l := by
  intro l
  induction l with
  | nil => intro h; exact absurd h (List.not_mem_nil s)
  | cons t r ih =>
    intro hs
    cases r with
    | nil =>
      rcases List.mem_singleton.mp hs with rfl
      exact ⟨[], [], by simp [Chunker.joinSp]⟩
    | cons u r' =>
      rcases List.mem_cons.mp hs with rfl | hs'
      · exact ⟨[], ' ' :: Chunker.joinSp (u :: r'), by simp [Chunker.joinSp]⟩
      · rcases ih hs' with ⟨pre, post, hdec⟩
        exact ⟨t ++ ' ' :: pre, post, by simp [Chunker.joinSp, ← hdec]⟩

/-- Helper: filtering out the dropped-while characters is the same as
filtering the whole list, when the drop predicate is the complement. -/
theorem filter_dropWhile_not (p : Char → Bool) : ∀ l : List Char,
    (l.dropWhile p).filter (fun c => !p c) = l.filter (fun c => !p c) := by
  intro l
  induction l with
  | nil => simp
  | cons c r ih =>
    by_cases hc : p c
    · simpa [List.dropWhile_cons, hc, List.filter_cons] using ih
    · simp [List.dropWhile_cons, hc]

/-- Helper: trimming only removes whitespace: the non-whitespace
characters are untouched. -/
theorem trimC_filter (l : List Char) :
    (Chunker.trimC l).filter (fun c => !Chunker.isWsChar c)
      = l.filter (fun c => !Chunker.isWsChar c) := by
  unfold Chunker.trimC
  rw [List.filter_reverse, filter_dropWhile_not, List.filter_reverse,
    List.reverse_reverse, filter_dropWhile_not]

/-- Helper: the trimmed list sits contiguously inside the original. -/
theorem trimC_within (l : List Char) : Chunker.trimC l <:+: l := by
  have h1 : List.takeWhile Chunker.isWsChar l ++ List.dropWhile Chunker.isWsChar l = l :=
    List.takeWhile_append_dropWhile Chunker.isWsChar l
  set y := List.dropWhile Chunker.isWsChar l with hy
  have h2 : List.takeWhile Chunker.isWsChar y.reverse
      ++ List.dropWhile Chunker.isWsChar y.reverse = y.reverse :=
    List.takeWhile_append_dropWhile Chunker.isWsChar y.reverse
  refine ⟨List.takeWhile Chunker.isWsChar l,
    (List.takeWhile Chunker.isWsChar y.reverse).reverse, ?_⟩
  have h3 : Chunker.trimC l ++ (List.takeWhile Chunker.isWsChar y.reverse).reverse = y := by
    unfold Chunker.trimC
    rw [← hy, ← List.reverse_append, h2, List.reverse_reverse]
  conv_rhs => rw [← h1]
  rw [List.append_assoc, h3]

/-- Helper: a member of the trimmed list is a member of the original. -/
theorem trimC_mem {x : Char} {l : List Char} (h : x ∈ Chunker.trimC l) : x ∈ l := by
  rcases trimC_within l with ⟨pre, post, hdec⟩
  rw [← hdec]
  simp [h]

/-- Helper: contiguous containment is preserved by extending on the
left with one element. -/
theorem within_cons {α : Type} {p : List α} {c : α} {l : List α}
    (h : p <:+: l) : p <:+: c :: l := by
  rcases h with ⟨s, t, rfl⟩
  exact ⟨c :: s, t, rfl⟩

/-- Helper: contiguous containment is preserved by extending on the
left. -/
theorem within_append_left {α : Type} {p l : List α} (pre : List α)
    (h : p <:+: l) : p <:+: pre ++ l := by
  rcases h with ⟨s, t, rfl⟩
  exact ⟨pre ++ s, t, by simp⟩

/-- Helper: the split never loses or adds non-whitespace characters —
the flattened pieces filter to exactly the input's non-whitespace
characters (in order). -/
theorem splitPiecesAux_flatten_filter : ∀ (l piece : List Char) (skipping : Bool),
    ((Chunker.splitPiecesAux l piece skipping).flatten).filter (fun c => !Chunker.isWsChar c)
      = (piece.reverse ++ l).filter (fun c => !Chunker.isWsChar c) := by
  intro l
  induction l with
  | nil => intro piece skipping; simp [Chunker.splitPiecesAux]
  | cons c rest ih =>
    intro piece skipping
    simp only [Chunker.splitPiecesAux]
    by_cases h1 : (skipping && Chunker.isWsChar c) = true
    · rw [if_pos h1, ih piece true]
      have hc : Chunker.isWsChar c = true := by
        have h1' := h1
        simp only [Bool.and_eq_true] at h1'
        exact h1'.2
      simp [List.filter_append, List.filter_cons, hc]
    · rw [if_neg h1]
      by_cases h2 : (Chunker.isWsChar c && Chunker.headIsTerm piece) = true
      · rw [if_pos h2]
        have hc : Chunker.isWsChar c = true := by
          have h2' := h2
          simp only [Bool.and_eq_true] at h2'
          exact h2'.1
        simp only [List.flatten_cons, List.filter_append]
        rw [ih [] true]
        simp [List.filter_append, List.filter_cons, hc]
      · rw [if_neg h2, ih (c :: piece) false]
        simp [List.filter_append, List.filter_cons, List.append_assoc]
    
/-- Helper: every piece produced by the split machine sits contiguously
inside the processed input. -/
theorem splitPiecesAux_within : ∀ (l piece : List Char) (skipping : Bool),
    (skipping = true → piece = []) →
    ∀ p ∈ Chunker.splitPiecesAux l piece skipping, p <:+: piece.reverse ++ l := by
  intro l
  induction l with
  | nil =>
    intro piece skipping _ p hp
    simp only [Chunker.splitPiecesAux, List.mem_singleton] at hp
    exact ⟨[], [], by simp [hp]⟩
  | cons c rest ih =>
    intro piece skipping hsk p hp
    simp only [Chunker.splitPiecesAux] at hp
    by_cases h1 : (skipping && Chunker.isWsChar c) = true
    · rw [if_pos h1] at hp
      have hpe : piece = [] := by
        have h1' := h1
        simp only [Bool.and_eq_true] at h1'
        exact hsk h1'.1
      subst hpe
      have := ih [] true (fun _ => rfl) p hp
      simpa using within_cons (by simpa using this)
    · rw [if_neg h1] at hp
      by_cases h2 : (Chunker.isWsChar c && Chunker.headIsTerm piece) = true
      · rw [if_pos h2] at hp
        rcases List.mem_cons.mp hp with rfl | hp'
        · exact ⟨[], c :: rest, by simp⟩
        · have := ih [] true (fun _ => rfl) p hp'
          exact within_append_left piece.reverse (within_cons (by simpa using this))
      · rw [if_neg h2] at hp
        have := ih (c :: piece) false (by simp) p hp
        simpa [List.append_assoc] using this

/-- Helper: every sentence of `splitIntoSentences t` sits contiguously
inside `t`. -/
theorem sentence_within {t s : List Char}
    (h : s ∈ Chunker.splitIntoSentences t) : s <:+: t := by
  unfold Chunker.splitIntoSentences at h
  have h1 := (List.mem_filter.mp h).1
  rcases List.mem_map.mp h1 with ⟨p, hp, rfl⟩
  have h2 := splitPiecesAux_within t [] false (by simp) p hp
  exact (trimC_within p).trans (by simpa using h2)

/-- Helper: trimming the pieces and dropping the emptied ones does not
change the non-whitespace character content of the flattened pieces. -/
theorem flatten_trim_filter : ∀ P : List (List Char),
    (((P.map Chunker.trimC).filter (fun s => 0 < s.length)).flatten).filter
        (fun c => !Chunker.isWsChar c)
      = (P.flatten).filter (fun c => !Chunker.isWsChar c) := by
  intro P
  induction P with
  | nil => simp
  | cons p P' ih =>
    by_cases hp : 0 < (Chunker.trimC p).length
    · rw [List.map_cons, List.filter_cons, if_pos (by simpa using hp)]
      simp only [List.flatten_cons, List.filter_append]
      rw [ih, trimC_filter]
    · have hempty : Chunker.trimC p = [] := by
        cases h : Chunker.trimC p with
        | nil => rfl
        | cons a l => rw [h] at hp; simp at hp
      have hpf : p.filter (fun c => !Chunker.isWsChar c) = [] := by
        rw [← trimC_filter, hempty]
        rfl
      rw [List.map_cons, List.filter_cons, if_neg (by simpa using hp)]
      simp only [List.flatten_cons, List.filter_append, hpf]
      rw [ih]
      simp

/-- Helper: the sentences of `t` carry exactly the non-whitespace
characters of `t`, in order. -/
theorem sentences_flatten_filter (t : List Char) :
    ((Chunker.splitIntoSentences t).flatten).filter (fun c => !Chunker.isWsChar c)
      = t.filter (fun c => !Chunker.isWsChar c) := by
  unfold Chunker.splitIntoSentences
  rw [flatten_trim_filter]
  simpa using splitPiecesAux_flatten_filter t [] false

/-- Helper: the overlap collector returns an initial segment of the
(reversed) chunk it walks. -/
theorem ovAux_initial (ovS : ℤ) : ∀ (ol : ℤ) (l : List (List Char)),
    ∃ t, Chunker.ovAux ovS ol l ++ t = l := by
  intro ol l
  induction l generalizing ol with
  | nil => exact ⟨[], rfl⟩
  | cons s rest ih =>
    simp only [Chunker.ovAux]
    by_cases h : ol < ovS
    · rw [if_pos h]
      rcases ih (ol + s.length + 1) with ⟨t, ht⟩
      exact ⟨t, by rw [List.cons_append, ht]⟩
    · rw [if_neg h]
      exact ⟨s :: rest, rfl⟩

/-- Helper: the carried overlap is a suffix of the emitted chunk's
sentences. -/
theorem ovSuffix_sfx (ovS : ℤ) (cc : List (List Char)) :
    ∃ t, t ++ Chunker.ovSuffix ovS cc = cc := by
  rcases ovAux_initial ovS 0 cc.reverse with ⟨t, ht⟩
  refine ⟨t.reverse, ?_⟩
  unfold Chunker.ovSuffix
  have h2 := congrArg List.reverse ht
  simpa [List.reverse_append] using h2

/-- Helper: one-step unfolding of `chunkAux` in the emit branch. -/
theorem chunkAux_cons_pos (maxS ovS : ℤ) (x : List Char) (rest cc lastOv : List (List Char))
    (hcond : ((Chunker.joinSp cc).length : ℤ) + (if cc = [] then (0 : ℤ) else 1)
        + (x.length : ℤ) > maxS ∧ cc ≠ []) :
    Chunker.chunkAux maxS ovS (x :: rest) cc lastOv
      = (cc :: (Chunker.chunkAux maxS ovS rest
            ((if 0 < ovS then Chunker.ovSuffix ovS cc else lastOv) ++ [x])
            (if 0 < ovS then Chunker.ovSuffix ovS cc else lastOv)).1,
         (Chunker.chunkAux maxS ovS rest
            ((if 0 < ovS then Chunker.ovSuffix ovS cc else lastOv) ++ [x])
            (if 0 < ovS then Chunker.ovSuffix ovS cc else lastOv)).2) := by
  simp only [Chunker.chunkAux]
  rw [if_pos hcond]

/-- Helper: one-step unfolding of `chunkAux` in the accumulate branch. -/
theorem chunkAux_cons_neg (maxS ovS : ℤ) (x : List Char) (rest cc lastOv : List (List Char))
    (hcond : ¬ (((Chunker.joinSp cc).length : ℤ) + (if cc = [] then (0 : ℤ) else 1)
        + (x.length : ℤ) > maxS ∧ cc ≠ [])) :
    Chunker.chunkAux maxS ovS (x :: rest) cc lastOv
      = Chunker.chunkAux maxS ovS rest (cc ++ [x]) lastOv := by
  simp only [Chunker.chunkAux]
  rw [if_neg hcond]

/-- Helper: every sentence fed to the accumulation loop (and every
sentence already in the current chunk) ends up in an emitted chunk or in
the final current chunk. -/
theorem chunkAux_covers (maxS ovS : ℤ) : ∀ (rest cc lastOv : List (List Char))
    (s : List Char), s ∈ cc ∨ s ∈ rest →
    s ∈ (Chunker.chunkAux maxS ovS rest cc lastOv).1.flatten
      ∨ s ∈ (Chunker.chunkAux maxS ovS rest cc lastOv).2 := by
  intro rest
  induction rest with
  | nil =>
    intro cc lastOv s hs
    rcases hs with h | h
    · exact Or.inr h
    · exact absurd h (List.not_mem_nil s)
  | cons x rest ih =>
    intro cc lastOv s hs
    by_cases hcond : ((Chunker.joinSp cc).length : ℤ) + (if cc = [] then (0 : ℤ) else 1)
        + (x.length : ℤ) > maxS ∧ cc ≠ []
    · rw [chunkAux_cons_pos maxS ovS x rest cc lastOv hcond]
      set nv := if 0 < ovS then Chunker.ovSuffix ovS cc else lastOv with hnv
      simp only [List.flatten_cons, List.mem_append]
      rcases hs with h | h
      · exact Or.inl (Or.inl h)
      · rcases List.mem_cons.mp h with rfl | h'
        · rcases ih (nv ++ [s]) nv s
            (Or.inl (List.mem_append_right _ (List.mem_singleton_self s))) with hin | hin
          · exact Or.inl (Or.inr hin)
          · exact Or.inr hin
        · rcases ih (nv ++ [x]) nv s (Or.inr h') with hin | hin
          · exact Or.inl (Or.inr hin)
          · exact Or.inr hin
    · rw [chunkAux_cons_neg maxS ovS x rest cc lastOv hcond]
      rcases hs with h | h
      · exact ih (cc ++ [x]) lastOv s (Or.inl (List.mem_append_left _ h))
      · rcases List.mem_cons.mp h with rfl | h'
        · exact ih (cc ++ [s]) lastOv s
            (Or.inl (List.mem_append_right _ (List.mem_singleton_self s)))
        · exact ih (cc ++ [x]) lastOv s (Or.inr h')

/-- Helper: when the pending chunk followed by the remaining sentences
forms a suffix of the full sentence list (and the carried overlap state
is consistent), every emitted chunk, and the final chunk, is a non-empty
contiguous run of the full sentence list. -/
theorem chunkAux_chunks_within (maxS ovS : ℤ) (sents : List (List Char)) :
    ∀ (rest cc lastOv : List (List Char)),
    (∃ t, t ++ (cc ++ rest) = sents) → (0 < ovS ∨ lastOv = []) →
    (∀ c ∈ (Chunker.chunkAux maxS ovS rest cc lastOv).1, c ≠ [] ∧ c <:+: sents)
    ∧ (Chunker.chunkAux maxS ovS rest cc lastOv).2 <:+: sents := by
  intro rest
  induction rest with
  | nil =>
    intro cc lastOv hsfx _
    rcases hsfx with ⟨t, ht⟩
    constructor
    · intro c hc
      exact absurd hc (List.not_mem_nil c)
    · exact ⟨t, [], by simpa using ht⟩
  | cons x rest ih =>
    intro cc lastOv hsfx hinv
    rcases hsfx with ⟨t, ht⟩
    by_cases hcond : ((Chunker.joinSp cc).length : ℤ) + (if cc = [] then (0 : ℤ) else 1)
        + (x.length : ℤ) > maxS ∧ cc ≠ []
    · rw [chunkAux_cons_pos maxS ovS x rest cc lastOv hcond]
      have hnvsfx : ∃ u, u ++ (if 0 < ovS then Chunker.ovSuffix ovS cc else lastOv) = cc := by
        by_cases hov : 0 < ovS
        · rw [if_pos hov]; exact ovSuffix_sfx ovS cc
        · rw [if_neg hov, hinv.resolve_left hov]
          exact ⟨cc, by simp⟩
      rcases hnvsfx with ⟨u, hu⟩
      set nv := if 0 < ovS then Chunker.ovSuffix ovS cc else lastOv with hnv
      have hinv' : 0 < ovS ∨ nv = [] := by
        by_cases hov : 0 < ovS
        · exact Or.inl hov
        · rw [hnv, if_neg hov]
          exact Or.inr (hinv.resolve_left hov)
      have hsfx' : ∃ t', t' ++ ((nv ++ [x]) ++ rest) = sents := by
        refine ⟨t ++ u, ?_⟩
        rw [← ht, ← hu]
        simp [List.append_assoc]
      have hrec := ih (nv ++ [x]) nv hsfx' hinv'
      refine ⟨?_, hrec.2⟩
      intro c hc
      rcases List.mem_cons.mp hc with rfl | hc'
      · refine ⟨hcond.2, ⟨t, x :: rest, ?_⟩⟩
        rw [← ht]
        simp [List.append_assoc]
      · exact hrec.1 c hc'
    · rw [chunkAux_cons_neg maxS ovS x rest cc lastOv hcond]
      have hsfx' : ∃ t', t' ++ ((cc ++ [x]) ++ rest) = sents := by
        refine ⟨t, ?_⟩
        rw [← ht]
        simp [List.append_assoc]
      exact ih (cc ++ [x]) lastOv hsfx' hinv

/-- Helper: the final chunk after processing at least one sentence is
non-empty. -/
theorem chunkAux_fin_ne (maxS ovS : ℤ) : ∀ (rest cc lastOv : List (List Char)),
    cc ≠ [] ∨ rest ≠ [] → (Chunker.chunkAux maxS ovS rest cc lastOv).2 ≠ [] := by
  intro rest
  induction rest with
  | nil =>
    intro cc lastOv h
    exact h.resolve_right (fun hne => hne rfl)
  | cons x rest ih =>
    intro cc lastOv _
    by_cases hcond : ((Chunker.joinSp cc).length : ℤ) + (if cc = [] then (0 : ℤ) else 1)
        + (x.length : ℤ) > maxS ∧ cc ≠ []
    · rw [chunkAux_cons_pos maxS ovS x rest cc lastOv hcond]
      exact ih _ _ (Or.inl (by simp))
    · rw [chunkAux_cons_neg maxS ovS x rest cc lastOv hcond]
      exact ih _ _ (Or.inl (by simp))

/-- Helper: weighted overlap length of a cons. -/
theorem wlen_cons (s : List Char) (l : List (List Char)) :
    Chunker.wlen (s :: l) = ((s.length : ℤ) + 1) + Chunker.wlen l := by
  unfold Chunker.wlen
  simp [List.map_cons, List.sum_cons]

/-- Helper: the weighted overlap length ignores order. -/
theorem wlen_reverse (l : List (List Char)) :
    Chunker.wlen l.reverse = Chunker.wlen l := by
  unfold Chunker.wlen
  rw [List.map_reverse, List.sum_reverse]

/-- Helper: the overlap collector stops only when the sentences are
exhausted or the accumulated weighted length has reached the target. -/
theorem ovAux_reach (ovS : ℤ) : ∀ (ol : ℤ) (l : List (List Char)),
    Chunker.ovAux ovS ol l = l ∨ ovS ≤ ol + Chunker.wlen (Chunker.ovAux ovS ol l) := by
  intro ol l
  induction l generalizing ol with
  | nil => exact Or.inl rfl
  | cons s rest ih =>
    simp only [Chunker.ovAux]
    by_cases h : ol < ovS
    · rw [if_pos h]
      rcases ih (ol + s.length + 1) with heq | hle
      · exact Or.inl (by rw [heq])
      · refine Or.inr ?_
        rw [wlen_cons]
        linarith
    · rw [if_neg h]
      have hz : Chunker.wlen ([] : List (List Char)) = 0 := rfl
      refine Or.inr ?_
      rw [hz]
      linarith [not_lt.mp h]

/-- Helper: the carried overlap is either the whole chunk or has
weighted length at least `overlapSize`. -/
theorem ovSuffix_reach (ovS : ℤ) (cc : List (List Char)) :
    Chunker.ovSuffix ovS cc = cc ∨ ovS ≤ Chunker.wlen (Chunker.ovSuffix ovS cc) := by
  rcases ovAux_reach ovS 0 cc.reverse with h | h
  · exact Or.inl (by unfold Chunker.ovSuffix; rw [h, List.reverse_reverse])
  · refine Or.inr ?_
    unfold Chunker.ovSuffix
    rw [wlen_reverse]
    linarith

/-- Helper: each sentence collected by the overlap loop was added while
the accumulated weighted length of the sentences after it was still
below the target. -/
theorem ovAux_weight_at (ovS : ℤ) : ∀ (ol : ℤ) (l pre post : List (List Char))
    (mid : List Char), Chunker.ovAux ovS ol l = pre ++ mid :: post →
    ol + Chunker.wlen pre < ovS := by
  intro ol l
  induction l generalizing ol with
  | nil =>
    intro pre post mid h
    simp only [Chunker.ovAux] at h
    exact absurd h.symm (by cases pre <;> simp)
  | cons s rest ih =>
    intro pre post mid h
    simp only [Chunker.ovAux] at h
    by_cases hol : ol < ovS
    · rw [if_pos hol] at h
      cases pre with
      | nil =>
        have hz : Chunker.wlen ([] : List (List Char)) = 0 := rfl
        rw [hz]
        linarith
      | cons p pre' =>
        rw [List.cons_append] at h
        injection h with h1 h2
        have h3 := ih (ol + s.length + 1) pre' post mid h2
        rw [wlen_cons, h1] at *
        linarith
    · rw [if_neg hol] at h
      exact absurd h (by cases pre <;> simp)

/-- Helper: dropping the earliest carried sentence leaves a suffix whose
weighted length is below `overlapSize` — the carried overlap is the
shortest suffix reaching the target. -/
theorem ovSuffix_minimal (ovS : ℤ) (cc : List (List Char)) (a : List Char)
    (rest : List (List Char)) (h : Chunker.ovSuffix ovS cc = a :: rest) :
    Chunker.wlen rest < ovS := by
  have h2 := congrArg List.reverse h
  unfold Chunker.ovSuffix at h2
  rw [List.reverse_reverse] at h2
  have h' : Chunker.ovAux ovS 0 cc.reverse = rest.reverse ++ a :: [] := by
    rw [h2]
    simp
  have h3 := ovAux_weight_at ovS 0 cc.reverse rest.reverse [] a h'
  rw [wlen_reverse] at h3
  linarith

/-- Helper: in the chunk sequence (emitted chunks followed by the final
chunk), each chunk after the first is the carried overlap suffix of its
predecessor followed by at least one newly accumulated sentence; and the
first chunk extends the initial pending chunk. -/
theorem chunkAux_chain (maxS ovS : ℤ) : ∀ (rest cc lastOv : List (List Char)),
    (0 < ovS ∨ lastOv = []) →
    (∃ ext, ((Chunker.chunkAux maxS ovS rest cc lastOv).1
        ++ [(Chunker.chunkAux maxS ovS rest cc lastOv).2]).head? = some (cc ++ ext))
    ∧ List.Chain' (fun prev next => ∃ core, core ≠ []
        ∧ next = (if 0 < ovS then Chunker.ovSuffix ovS prev else []) ++ core)
      ((Chunker.chunkAux maxS ovS rest cc lastOv).1
        ++ [(Chunker.chunkAux maxS ovS rest cc lastOv).2]) := by
  intro rest
  induction rest with
  | nil =>
    intro cc lastOv _
    refine ⟨⟨[], by simp [Chunker.chunkAux]⟩, ?_⟩
    simp [Chunker.chunkAux]
  | cons x rest ih =>
    intro cc lastOv hinv
    by_cases hcond : ((Chunker.joinSp cc).length : ℤ) + (if cc = [] then (0 : ℤ) else 1)
        + (x.length : ℤ) > maxS ∧ cc ≠ []
    · rw [chunkAux_cons_pos maxS ovS x rest cc lastOv hcond]
      set nv := if 0 < ovS then Chunker.ovSuffix ovS cc else lastOv with hnv
      have hinv' : 0 < ovS ∨ nv = [] := by
        by_cases hov : 0 < ovS
        · exact Or.inl hov
        · rw [hnv, if_neg hov]
          exact Or.inr (hinv.resolve_left hov)
      obtain ⟨⟨ext, hhead⟩, hchain⟩ := ih (nv ++ [x]) nv hinv'
      refine ⟨⟨[], by simp⟩, ?_⟩
      rw [List.cons_append, List.chain'_cons']
      refine ⟨?_, hchain⟩
      intro y hy
      rw [hhead] at hy
      have hy' : y = nv ++ x :: ext := (by simpa using hy : nv ++ x :: ext = y).symm
      refine ⟨x :: ext, by simp, ?_⟩
      have hnveq : nv = (if 0 < ovS then Chunker.ovSuffix ovS cc else []) := by
        by_cases hov : 0 < ovS
        · rw [hnv, if_pos hov, if_pos hov]
        · rw [hnv, if_neg hov, if_neg hov]
          exact hinv.resolve_left hov
      rw [hy', ← hnveq]
    · rw [chunkAux_cons_neg maxS ovS x rest cc lastOv hcond]
      obtain ⟨⟨ext, hhead⟩, hchain⟩ := ih (cc ++ [x]) lastOv hinv
      refine ⟨⟨x :: ext, ?_⟩, hchain⟩
      rw [hhead]
      simp

/-- Helper: every chunk returned by the flush step is a joined emitted
chunk or the joined final chunk. -/
theorem chunkCore_cases (maxS ovS : ℤ) (sents : List (List Char)) :
    ∀ c ∈ Chunker.chunkCore maxS ovS sents,
    (∃ l ∈ (Chunker.chunkAux maxS ovS sents [] []).1, c = Chunker.joinSp l)
    ∨ c = Chunker.joinSp (Chunker.chunkAux maxS ovS sents [] []).2 := by
  intro c hc
  simp only [Chunker.chunkCore] at hc
  split_ifs at hc with h1 h2
  · rcases List.mem_map.mp hc with ⟨l, hl, rfl⟩
    exact Or.inl ⟨l, hl, rfl⟩
  · rcases List.mem_append.mp hc with hc' | hc'
    · rcases List.mem_map.mp hc' with ⟨l, hl, rfl⟩
      exact Or.inl ⟨l, hl, rfl⟩
    · exact Or.inr (List.mem_singleton.mp hc')
  · rcases List.mem_map.mp hc with ⟨l, hl, rfl⟩
    exact Or.inl ⟨l, hl, rfl⟩

/-- Helper: the flush step keeps every loop-emitted chunk. -/
theorem chunkCore_has_out (maxS ovS : ℤ) (sents : List (List Char))
    (l : List (List Char)) (hl : l ∈ (Chunker.chunkAux maxS ovS sents [] []).1) :
    Chunker.joinSp l ∈ Chunker.chunkCore maxS ovS sents := by
  simp only [Chunker.chunkCore]
  split_ifs with h1 h2
  · exact List.mem_map.mpr ⟨l, hl, rfl⟩
  · exact List.mem_append.mpr (Or.inl (List.mem_map.mpr ⟨l, hl, rfl⟩))
  · exact List.mem_map.mpr ⟨l, hl, rfl⟩

/-- Helper: the text of the final chunk is always present in the output
of the flush step — either it is appended, or the dedupe applies because
the previously emitted chunk already has exactly that text. -/
theorem chunkCore_has_fin (maxS ovS : ℤ) (sents : List (List Char)) (hs : sents ≠ []) :
    ∃ c ∈ Chunker.chunkCore maxS ovS sents,
      c = Chunker.joinSp (Chunker.chunkAux maxS ovS sents [] []).2 := by
  have hfin : (Chunker.chunkAux maxS ovS sents [] []).2 ≠ [] :=
    chunkAux_fin_ne maxS ovS sents [] [] (Or.inr hs)
  simp only [Chunker.chunkCore]
  split_ifs with h1
  · rcases List.getLast?_eq_some_iff.mp h1.2 with ⟨ys, hys⟩
    refine ⟨Chunker.joinSp (Chunker.chunkAux maxS ovS sents [] []).2, ?_, rfl⟩
    rw [hys]
    exact List.mem_append.mpr (Or.inr (List.mem_singleton_self _))
  · exact ⟨Chunker.joinSp (Chunker.chunkAux maxS ovS sents [] []).2,
      List.mem_append.mpr (Or.inr (List.mem_singleton_self _)), rfl⟩

/-- Helper: a non-whitespace character is in the original text exactly
when it is in the trimmed text. -/
theorem trimC_mem_iff {ch : Char} (text : List Char)
    (hch : Chunker.isWsChar ch = false) :
    ch ∈ text ↔ ch ∈ Chunker.trimC text := by
  constructor
  · intro h
    have h1 : ch ∈ text.filter (fun c => !Chunker.isWsChar c) :=
      List.mem_filter.mpr ⟨h, by rw [hch]; rfl⟩
    rw [← trimC_filter] at h1
    exact (List.mem_filter.mp h1).1
  · intro h
    exact trimC_mem h

/-- Helper: a non-whitespace character of a chunk that joins a
contiguous run of the sentences of `t` is a character of `t`. -/
theorem joinSp_char_in_text {ch : Char} (t : List Char) (l : List (List Char))
    (hch : Chunker.isWsChar ch = false)
    (hlsub : l <:+: Chunker.splitIntoSentences t)
    (hchl : ch ∈ Chunker.joinSp l) : ch ∈ t := by
  rcases joinSp_mem_decomp hchl with rfl | ⟨s, hsl, hchs⟩
  · exact absurd hch (by decide)
  · have hssents : s ∈ Chunker.splitIntoSentences t := by
      rcases hlsub with ⟨u, v, huv⟩
      rw [← huv]
      exact List.mem_append.mpr (Or.inl (List.mem_append.mpr (Or.inr hsl)))
    obtain ⟨u, v, huv⟩ := sentence_within hssents
    rw [← huv]
    exact List.mem_append.mpr (Or.inl (List.mem_append.mpr (Or.inr hchs)))

/-- C7: `semanticChunk` loses no content — empty or whitespace-only
input yields the empty chunk sequence; every returned chunk is either
the whole trimmed input or the space-join of a non-empty contiguous run
of the input's sentences (so no sentence is ever split across chunks);
every sentence of the input appears contiguously inside some returned
chunk (no sentence is dropped); and the non-whitespace characters
recoverable from the returned chunks are exactly the non-whitespace
characters of the input (no characters are discarded), which is the
content-coverage guarantee modulo the overlap and final-dedupe
duplication. -/
theorem semanticChunk_content_preservation (text : List Char) (maxS ovS : ℤ) :
    (Chunker.trimC text = [] → Chunker.semanticChunk text maxS ovS = [])
    ∧ (∀ c ∈ Chunker.semanticChunk text maxS ovS,
        c = Chunker.trimC text
        ∨ ∃ l, l ≠ [] ∧ l <:+: Chunker.splitIntoSentences (Chunker.trimC text)
            ∧ c = Chunker.joinSp l)
    ∧ (∀ s ∈ Chunker.splitIntoSentences (Chunker.trimC text),
        ∃ c ∈ Chunker.semanticChunk text maxS ovS, s <:+: c)
    ∧ (∀ ch : Char, Chunker.isWsChar ch = false →
        (ch ∈ text ↔ ∃ c ∈ Chunker.semanticChunk text maxS ovS, ch ∈ c)) := by
  by_cases ht0 : Chunker.trimC text = []
  · have hout : Chunker.semanticChunk text maxS ovS = [] := by
      unfold Chunker.semanticChunk
      rw [if_pos ht0]
    have hsent : Chunker.splitIntoSentences (Chunker.trimC text) = [] := by
      rw [ht0]
      rfl
    refine ⟨fun _ => hout, ?_, ?_, ?_⟩
    · intro c hc
      rw [hout] at hc
      exact absurd hc (List.not_mem_nil c)
    · intro s hs
      rw [hsent] at hs
      exact absurd hs (List.not_mem_nil s)
    · intro ch hch
      rw [hout]
      constructor
      · intro h
        have h1 : ch ∈ Chunker.trimC text := (trimC_mem_iff text hch).mp h
        rw [ht0] at h1
        exact absurd h1 (List.not_mem_nil ch)
      · rintro ⟨c, hc, _⟩
        exact absurd hc (List.not_mem_nil c)
  · by_cases hlen : ((Chunker.trimC text).length : ℤ) ≤ maxS
    · have hout : Chunker.semanticChunk text maxS ovS = [Chunker.trimC text] := by
        unfold Chunker.semanticChunk
        rw [if_neg ht0, if_pos hlen]
      refine ⟨fun h => absurd h ht0, ?_, ?_, ?_⟩
      · intro c hc
        rw [hout] at hc
        exact Or.inl (List.mem_singleton.mp hc)
      · intro s hs
        exact ⟨Chunker.trimC text, by rw [hout]; exact List.mem_singleton_self _,
          sentence_within hs⟩
      · intro ch hch
        rw [hout]
        constructor
        · intro h
          exact ⟨Chunker.trimC text, List.mem_singleton_self _,
            (trimC_mem_iff text hch).mp h⟩
        · rintro ⟨c, hc, hchc⟩
          rcases List.mem_singleton.mp hc with rfl
          exact (trimC_mem_iff text hch).mpr hchc
    · by_cases hs0 : Chunker.splitIntoSentences (Chunker.trimC text) = []
      · have hout : Chunker.semanticChunk text maxS ovS = [Chunker.trimC text] := by
          unfold Chunker.semanticChunk
          rw [if_neg ht0, if_neg hlen, if_pos hs0]
        refine ⟨fun h => absurd h ht0, ?_, ?_, ?_⟩
        · intro c hc
          rw [hout] at hc
          exact Or.inl (List.mem_singleton.mp hc)
        · intro s hs
          rw [hs0] at hs
          exact absurd hs (List.not_mem_nil s)
        · intro ch hch
          rw [hout]
          constructor
          · intro h
            exact ⟨Chunker.trimC text, List.mem_singleton_self _,
              (trimC_mem_iff text hch).mp h⟩
          · rintro ⟨c, hc, hchc⟩
            rcases List.mem_singleton.mp hc with rfl
            exact (trimC_mem_iff text hch).mpr hchc
      · have hout : Chunker.semanticChunk text maxS ovS
            = Chunker.chunkCore maxS ovS (Chunker.splitIntoSentences (Chunker.trimC text)) := by
          unfold Chunker.semanticChunk
          rw [if_neg ht0, if_neg hlen, if_neg hs0]
        have hr := chunkAux_chunks_within maxS ovS
          (Chunker.splitIntoSentences (Chunker.trimC text))
          (Chunker.splitIntoSentences (Chunker.trimC text)) [] [] ⟨[], by simp⟩ (Or.inr rfl)
        have hfinne : (Chunker.chunkAux maxS ovS
            (Chunker.splitIntoSentences (Chunker.trimC text)) [] []).2 ≠ [] :=
          chunkAux_fin_ne maxS ovS _ [] [] (Or.inr hs0)
        have hsentchunk : ∀ s ∈ Chunker.splitIntoSentences (Chunker.trimC text),
            ∃ c ∈ Chunker.semanticChunk text maxS ovS, s <:+: c := by
          intro s hs
          rcases chunkAux_covers maxS ovS (Chunker.splitIntoSentences (Chunker.trimC text))
            [] [] s (Or.inr hs) with hin | hin
          · rcases List.mem_flatten.mp hin with ⟨l, hl, hsl⟩
            exact ⟨Chunker.joinSp l, by rw [hout]; exact chunkCore_has_out maxS ovS _ l hl,
              joinSp_has_sent hsl⟩
          · rcases chunkCore_has_fin maxS ovS _ hs0 with ⟨c, hcmem, hceq⟩
            refine ⟨c, by rw [hout]; exact hcmem, ?_⟩
            rw [hceq]
            exact joinSp_has_sent hin
        refine ⟨fun h => absurd h ht0, ?_, ?_, ?_⟩
        · intro c hc
          rw [hout] at hc
          rcases chunkCore_cases maxS ovS _ c hc with ⟨l, hl, rfl⟩ | rfl
          · exact Or.inr ⟨l, (hr.1 l hl).1, (hr.1 l hl).2, rfl⟩
          · exact Or.inr ⟨_, hfinne, hr.2, rfl⟩
        · exact hsentchunk
        · intro ch hch
          constructor
          · intro h
            have h1 : ch ∈ Chunker.trimC text := (trimC_mem_iff text hch).mp h
            have h2 : ch ∈ (Chunker.trimC text).filter (fun c => !Chunker.isWsChar c) :=
              List.mem_filter.mpr ⟨h1, by rw [hch]; rfl⟩
            rw [← sentences_flatten_filter] at h2
            have h3 := (List.mem_filter.mp h2).1
            rcases List.mem_flatten.mp h3 with ⟨s, hsmem, hchs⟩
            rcases chunkAux_covers maxS ovS (Chunker.splitIntoSentences (Chunker.trimC text))
              [] [] s (Or.inr hsmem) with hin | hin
            · rcases List.mem_flatten.mp hin with ⟨l, hl, hsl⟩
              exact ⟨Chunker.joinSp l, by rw [hout]; exact chunkCore_has_out maxS ovS _ l hl,
                mem_joinSp hsl hchs⟩
            · rcases chunkCore_has_fin maxS ovS _ hs0 with ⟨c, hcmem, hceq⟩
              refine ⟨c, by rw [hout]; exact hcmem, ?_⟩
              rw [hceq]
              exact mem_joinSp hin hchs
          · rintro ⟨c, hcmem, hchc⟩
            rw [hout] at hcmem
            rcases chunkCore_cases maxS ovS _ c hcmem with ⟨l, hl, rfl⟩ | rfl
            · exact (trimC_mem_iff text hch).mpr
                (joinSp_char_in_text (Chunker.trimC text) l hch (hr.1 l hl).2 hchc)
            · exact (trimC_mem_iff text hch).mpr
                (joinSp_char_in_text (Chunker.trimC text) _ hch hr.2 hchc)

/-- Witness for C7 at a concrete input: the non-whitespace character
coverage at a text that chunks into several overlapping pieces. -/
theorem semanticChunk_content_preservation_witness :
    ('A' ∈ "Alpha. Beta. Gamma.".toList
      ↔ ∃ c ∈ Chunker.semanticChunk "Alpha. Beta. Gamma.".toList 10 4, 'A' ∈ c) :=
  (semanticChunk_content_preservation "Alpha. Beta. Gamma.".toList 10 4).2.2.2 'A'
    (by decide)

/-- C8 (amended): with `overlapSize > 0`, every chunk that follows an
emitted chunk begins with the carried suffix of the previous chunk's
sentences, followed by at least one new sentence; the carried suffix is
sentence-granular (a suffix of the previous chunk, never truncating a
sentence) and is the shortest suffix whose accumulated length — each
sentence counted as its length plus one — reaches at least
`overlapSize`, or the whole previous chunk when its total is smaller.
In particular the carried length may exceed `overlapSize`; it is not the
closest length below it. -/
theorem overlap_carry_amended (text : List Char) (maxS ovS : ℤ) (hov : 0 < ovS) :
    List.Chain' (fun prev next => ∃ core, core ≠ []
        ∧ next = Chunker.ovSuffix ovS prev ++ core)
      (Chunker.chunkSkeleton text maxS ovS)
    ∧ (∀ cc : List (List Char), ∃ u, u ++ Chunker.ovSuffix ovS cc = cc)
    ∧ (∀ cc : List (List Char),
        Chunker.ovSuffix ovS cc = cc ∨ ovS ≤ Chunker.wlen (Chunker.ovSuffix ovS cc))
    ∧ (∀ (cc : List (List Char)) (a : List Char) (rest : List (List Char)),
        Chunker.ovSuffix ovS cc = a :: rest → Chunker.wlen rest < ovS) := by
  refine ⟨?_, fun cc => ovSuffix_sfx ovS cc, fun cc => ovSuffix_reach ovS cc,
    fun cc a rest h => ovSuffix_minimal ovS cc a rest h⟩
  have h := (chunkAux_chain maxS ovS (Chunker.splitIntoSentences (Chunker.trimC text))
    [] [] (Or.inl hov)).2
  simp only [Chunker.chunkSkeleton]
  refine h.imp ?_
  intro a b hab
  rcases hab with ⟨core, hc1, hc2⟩
  rw [if_pos hov] at hc2
  exact ⟨core, hc1, hc2⟩

/-- Counterexample to C8: with `maxChunkSize = 13` and
`overlapSize = 5`, after emitting the 13-character sentence the
algorithm carries that whole sentence as overlap (accumulated length 14,
well above 5) because the collection loop adds sentences until the
accumulated length reaches `overlapSize`; the only suffix of the
previous chunk's sentences whose combined length does not exceed 5 is
the empty one, so the claimed "closest possible without exceeding"
overlap would carry nothing — yet the second emitted chunk repeats the
full previous sentence. -/
theorem overlap_exceeds_counterexample :
    Chunker.semanticChunk "Aaaaaaaaaaaa. Bbb.".toList 13 5
      = ["Aaaaaaaaaaaa.".toList, "Aaaaaaaaaaaa. Bbb.".toList]
    ∧ Chunker.chunkSkeleton "Aaaaaaaaaaaa. Bbb.".toList 13 5
      = [["Aaaaaaaaaaaa.".toList], ["Aaaaaaaaaaaa.".toList, "Bbb.".toList]]
    ∧ Chunker.ovSuffix 5 ["Aaaaaaaaaaaa.".toList] = ["Aaaaaaaaaaaa.".toList]
    ∧ Chunker.wlen ["Aaaaaaaaaaaa.".toList] = 14
    ∧ ¬ Chunker.wlen ["Aaaaaaaaaaaa.".toList] ≤ 5
    ∧ (List.tails ["Aaaaaaaaaaaa.".toList]).filter
        (fun l => decide (Chunker.wlen l ≤ 5)) = [[]] := by
  refine ⟨by decide, by decide, by decide, by decide, by decide, by decide⟩

/-- Witness for the amended C8: the carried-overlap chain at the
concrete input of the counterexample. -/
theorem overlap_carry_amended_witness :
    List.Chain' (fun prev next => ∃ core, core ≠ []
        ∧ next = Chunker.ovSuffix 5 prev ++ core)
      (Chunker.chunkSkeleton "Aaaaaaaaaaaa. Bbb.".toList 13 5) :=
  (overlap_carry_amended "Aaaaaaaaaaaa. Bbb.".toList 13 5 (by decide)).1

/-- Witness for the amended C1: a concrete streaming run stays within
the 5-call budget, and the buffered loop observed for 7 iterations under
the always-tool port has made 7 calls without returning. -/
theorem agent_loop_turn_budget_amended_witness :
    (Agent.generateStream Agent.kbOnceStreamOracle Agent.emptyKbDeps []).calls
      ≤ Agent.maxTurns
    ∧ Agent.runAgentLoop Agent.alwaysToolOracle Agent.okWebDeps 7 []
      = Agent.LoopResult.outOfFuel 7 :=
  ⟨agent_loop_turn_budget_amended.1 Agent.kbOnceStreamOracle Agent.emptyKbDeps [],
   agent_loop_turn_budget_amended.2 7 []⟩
